import Mathlib

/-!
Shallow embedding of the QuantumCircuitsinCompiler state-evolution engine.

The C++ core is templated over a floating-point scalar (`float_t = double`);
here the scalar is a parameter `K` (a `LinearOrderedField` wherever division
or comparisons occur), so the arithmetic is modelled exactly.  Each
definition mirrors one function of the source tree:

* `ConstexprMath.Complex`      — include/constexprmath/constexpr_complex.h
* `tridiagonal_matrix_t` etc.  — include/systems/particle_in_a_box.h and
                                 core_types.h (the compact three-diagonal
                                 storage, fields `a`/`b`/`c` = lower (sub),
                                 main, upper (super) diagonal)
* `KetCat.Hamiltonian`         — the tridiagonal Hamiltonian constructor
* `KetCat.buildCrankNicolsonMatrices`, `KetCat.multiplyTrigiagonal`,
  `KetCat.solveTridiagonal`, `solveTridiagonal` — the Crank–Nicolson /
  Thomas-algorithm layer (both snapshot variants of the solver)
* `apply_unitary`, `is_unitary`, `QuantumGateOp.app` — the bit-masked
  gate-application engine (quantum_gate_helpers.h, QuantumGateOp)
* `ConstexprMath.sin_constexpr` / `cos_constexpr` — constexpr_trigon.h
* `StateVector.normalize_with_dx` — wavefunction/state_vector.h

Fixed-size `std::array` data is modelled by total functions out of `ℕ`;
an array of length `D` corresponds to the values at indices `< D`, and
every operation below only ever reads indices inside the bounds the
source reads.
-/

namespace ConstexprMath

/-- Embedding of `ConstexprMath::Complex<T>` (constexpr_complex.h): a pair
of scalar components `re` and `im`. -/
@[ext]
structure Complex (K : Type) where
  re : K
  im : K
deriving DecidableEq

namespace Complex

variable {K : Type}

/-- `Complex::zero()`: the additive identity 0 + 0i. -/
def zero [Zero K] : Complex K := ⟨0, 0⟩

/-- `Complex::fromReal(r)`: the complex number r + 0i. -/
def fromReal [Zero K] (r : K) : Complex K := ⟨r, 0⟩

/-- `operator+`: component-wise addition. -/
instance [Add K] : Add (Complex K) := ⟨fun z w => ⟨z.re + w.re, z.im + w.im⟩⟩

/-- `operator-` (binary): component-wise subtraction. -/
instance [Sub K] : Sub (Complex K) := ⟨fun z w => ⟨z.re - w.re, z.im - w.im⟩⟩

/-- `operator-` (unary): negation of both components. -/
instance [Neg K] : Neg (Complex K) := ⟨fun z => ⟨-z.re, -z.im⟩⟩

/-- `operator*` (complex × complex): (a+bi)(c+di) = (ac − bd) + (ad + bc)i. -/
instance [Mul K] [Add K] [Sub K] : Mul (Complex K) :=
  ⟨fun z w => ⟨z.re * w.re - z.im * w.im, z.re * w.im + z.im * w.re⟩⟩

/-- `operator*` (complex × scalar): scale both components. -/
def smul [Mul K] (z : Complex K) (s : K) : Complex K := ⟨z.re * s, z.im * s⟩

/-- `operator/` (complex × scalar): divide both components. -/
def sdiv [Div K] (z : Complex K) (s : K) : Complex K := ⟨z.re / s, z.im / s⟩

/-- `operator/` (complex × complex), by the conjugate-denominator formula
with `Denom = c² + d²`. -/
instance [Mul K] [Add K] [Sub K] [Div K] : Div (Complex K) :=
  ⟨fun z w =>
    ⟨(z.re * w.re + z.im * w.im) / (w.re * w.re + w.im * w.im),
     (z.im * w.re - z.re * w.im) / (w.re * w.re + w.im * w.im)⟩⟩

/-- `conj()`: negate the imaginary part. -/
def conj [Neg K] (z : Complex K) : Complex K := ⟨z.re, -z.im⟩

/-- `normSquared()`: re² + im². -/
def normSquared [Mul K] [Add K] (z : Complex K) : K := z.re * z.re + z.im * z.im

instance [Zero K] : Zero (Complex K) := ⟨zero⟩
instance [Zero K] [One K] : One (Complex K) := ⟨⟨1, 0⟩⟩

@[simp] theorem add_re [Add K] (z w : Complex K) : (z + w).re = z.re + w.re := rfl
@[simp] theorem add_im [Add K] (z w : Complex K) : (z + w).im = z.im + w.im := rfl
@[simp] theorem sub_re [Sub K] (z w : Complex K) : (z - w).re = z.re - w.re := rfl
@[simp] theorem sub_im [Sub K] (z w : Complex K) : (z - w).im = z.im - w.im := rfl
@[simp] theorem neg_re [Neg K] (z : Complex K) : (-z).re = -z.re := rfl
@[simp] theorem neg_im [Neg K] (z : Complex K) : (-z).im = -z.im := rfl
@[simp] theorem mul_re [Mul K] [Add K] [Sub K] (z w : Complex K) :
    (z * w).re = z.re * w.re - z.im * w.im := rfl
@[simp] theorem mul_im [Mul K] [Add K] [Sub K] (z w : Complex K) :
    (z * w).im = z.re * w.im + z.im * w.re := rfl
@[simp] theorem div_re [Mul K] [Add K] [Sub K] [Div K] (z w : Complex K) :
    (z / w).re = (z.re * w.re + z.im * w.im) / (w.re * w.re + w.im * w.im) := rfl
@[simp] theorem div_im [Mul K] [Add K] [Sub K] [Div K] (z w : Complex K) :
    (z / w).im = (z.im * w.re - z.re * w.im) / (w.re * w.re + w.im * w.im) := rfl
@[simp] theorem zero_re [Zero K] : (0 : Complex K).re = 0 := rfl
@[simp] theorem zero_im [Zero K] : (0 : Complex K).im = 0 := rfl
@[simp] theorem one_re [Zero K] [One K] : (1 : Complex K).re = 1 := rfl
@[simp] theorem one_im [Zero K] [One K] : (1 : Complex K).im = 0 := rfl
@[simp] theorem conj_re [Neg K] (z : Complex K) : (conj z).re = z.re := rfl
@[simp] theorem conj_im [Neg K] (z : Complex K) : (conj z).im = -z.im := rfl
@[simp] theorem smul_re [Mul K] (z : Complex K) (s : K) : (smul z s).re = z.re * s := rfl
@[simp] theorem smul_im [Mul K] (z : Complex K) (s : K) : (smul z s).im = z.im * s := rfl
@[simp] theorem fromReal_re [Zero K] (r : K) : (fromReal r).re = r := rfl
@[simp] theorem fromReal_im [Zero K] (r : K) : (fromReal r).im = 0 := rfl

/-- The embedded complex numbers form a commutative ring over any
commutative-ring scalar type: all axioms follow componentwise. -/
instance [CommRing K] : CommRing (Complex K) where
  add := (· + ·)
  add_assoc := by intros; ext <;> simp <;> ring
  zero := 0
  zero_add := by intros; ext <;> simp
  add_zero := by intros; ext <;> simp
  add_comm := by intros; ext <;> simp <;> ring
  mul := (· * ·)
  left_distrib := by intros; ext <;> simp <;> ring
  right_distrib := by intros; ext <;> simp <;> ring
  zero_mul := by intros; ext <;> simp
  mul_zero := by intros; ext <;> simp
  mul_assoc := by intros; ext <;> simp <;> ring
  one := 1
  one_mul := by intros; ext <;> simp
  mul_one := by intros; ext <;> simp
  neg := Neg.neg
  mul_comm := by intros; ext <;> simp <;> ring
  neg_add_cancel := by intros; ext <;> simp
  sub := (· - ·)
  sub_eq_add_neg := by intros; ext <;> simp [sub_eq_add_neg]
  nsmul := nsmulRec
  zsmul := zsmulRec

end Complex

end ConstexprMath


/-- `cplx_t` alias of core_types.h / types.h (`using cplx_t =
ConstexprMath::Complex<float_t>`), with the floating-point scalar modelled
by a parameter `K`. -/
abbrev cplx_t (K : Type) := ConstexprMath.Complex K

/-- `state_vector_t<N>`: a `std::array` of complex amplitudes, modelled as a
total function on indices; an array of length `D` is the restriction to
indices `< D`. -/
abbrev state_vector_t (K : Type) := ℕ → cplx_t K

/-- `matrix_t<Rows, Cols>` of complex entries, modelled as a total function
of the row and column index. -/
abbrev matrix_t (K : Type) := ℕ → ℕ → cplx_t K

/-- `qbit_list_t<QBitCount>`: a fixed-size array of qubit indices, modelled
as a total function; a list of length `k` is the restriction to `< k`. -/
abbrev qbit_list_t := ℕ → ℕ

/-- The compact tridiagonal storage `tridiagonal_matrix_t<Dim>`
(particle_in_a_box.h lines 355–370; same layout as the KetCat
`std::array<std::array<cplx_t, Dim>, 3>` of core_types.h with
`SuperDiagonal = 0`, `MainDiagonal = 1`, `SubDiagonal = 2`):

* `a` — lower (sub-) diagonal, `a i` models `M.a[i]` = entry (i, i−1);
  in KetCat notation `M[SubDiagonal][i]`;
* `b` — main diagonal, entry (i, i);  KetCat `M[MainDiagonal][i]`;
* `c` — upper (super-) diagonal, `c i` = entry (i, i+1);
  KetCat `M[SuperDiagonal][i]`. -/
structure tridiagonal_matrix_t (K : Type) where
  a : ℕ → cplx_t K
  b : ℕ → cplx_t K
  c : ℕ → cplx_t K

/-- An all-zero tridiagonal matrix: the value-initialized (`{}`) state of a
`tridiagonal_matrix_t` member in the source. -/
def zeroTri (K : Type) [Zero K] : tridiagonal_matrix_t K :=
  { a := fun _ => 0, b := fun _ => 0, c := fun _ => 0 }

section Thomas

variable {K : Type} [LinearOrderedField K]

/-- Main diagonal after the forward-elimination loop of `solveTridiagonal`
(both variants share this loop): for `i = 1..Dim−1` the multiplier is
`w = M.a[i] / b'[i−1]` (with the already-updated pivot `b'[i−1]`) and
`b'[i] = M.b[i] − w·M.c[i−1]`. -/
def thomasMain (M : tridiagonal_matrix_t K) : ℕ → cplx_t K
  | 0 => M.b 0
  | i + 1 => M.b (i + 1) - M.a (i + 1) / thomasMain M i * M.c i

/-- Right-hand side after the forward-elimination loop: for `i = 1..Dim−1`,
`psi'[i] = psi[i] − w·psi'[i−1]` with the same multiplier `w`. -/
def thomasRhs (M : tridiagonal_matrix_t K) (d : state_vector_t K) : ℕ → cplx_t K
  | 0 => d 0
  | i + 1 => d (i + 1) - M.a (i + 1) / thomasMain M i * thomasRhs M d i

/-- Back-substitution of the free-function `solveTridiagonal`
(particle_in_a_box.h line 488), counted from the top: `thomasBack M d Dim j`
is `Result[Dim−1−j]`.  `Result[Dim−1] = psi'[Dim−1]/b'[Dim−1]` and, going
down, `Result[i] = (psi'[i] − M.c[i]·Result[i+1]) / b'[i]`. -/
def thomasBack (M : tridiagonal_matrix_t K) (d : state_vector_t K) (Dim : ℕ) :
    ℕ → cplx_t K
  | 0 => thomasRhs M d (Dim - 1) / thomasMain M (Dim - 1)
  | j + 1 =>
    (thomasRhs M d (Dim - 1 - (j + 1)) - M.c (Dim - 1 - (j + 1)) * thomasBack M d Dim j) /
      thomasMain M (Dim - 1 - (j + 1))

/-- The free-function `solveTridiagonal<Dim>` (particle_in_a_box.h lines
465–492): Thomas algorithm with forward elimination on a value copy of `M`
and `psi`, then back substitution reading the upper diagonal `M.c`. -/
def solveTridiagonal (Dim : ℕ) (M : tridiagonal_matrix_t K) (psi : state_vector_t K) :
    state_vector_t K :=
  fun i => if i < Dim then thomasBack M psi Dim (Dim - 1 - i) else 0

end Thomas

namespace KetCat

variable {K : Type} [LinearOrderedField K]

/-- `KetCat::hBar` (part_005): the reduced Planck constant in normalized
units, `hBar = 1.0`. -/
def hBar : K := 1

/-- `KetCat::Hamiltonian<Dim>` constructor (part_005 lines 51–81): zero
initialization, then for each `i < Dim`, with `Alpha = ħ²/(2·m·dx²)` and
`Position = i·dx`:
superdiagonal (`c`) gets `−Alpha` when `i+1 < Dim`;
main diagonal (`b`) gets `2·Alpha + V(Position)`;
subdiagonal (`a`) gets `−Alpha` when `i > 0`.
Entries never written keep their zero initialization. -/
def Hamiltonian (Dim : ℕ) (m dx : K) (potential : K → K) : tridiagonal_matrix_t K :=
  let Alpha : K := hBar * hBar / (2 * m * dx * dx)
  { c := fun i => if i + 1 < Dim then ConstexprMath.Complex.fromReal (-Alpha) else 0
    b := fun i =>
      if i < Dim then ConstexprMath.Complex.fromReal (2 * Alpha + potential ((i : K) * dx))
      else 0
    a := fun i => if 0 < i ∧ i < Dim then ConstexprMath.Complex.fromReal (-Alpha) else 0 }

/-- `KetCat::buildCrankNicolsonMatrices` (particle_in_a_box.h lines
148–177): given `H` (the Hamiltonian matrix) and `dt`, with
`Factor = i·dt/(2ħ)`, writes for `i < Dim`:
`A.b[i] = 1 + Factor·H.b[i]`, `B.b[i] = 1 − Factor·H.b[i]`;
for `i > 0`: `A.a[i] = Factor·H.a[i]`, `B.a[i] = −Factor·H.a[i]`;
for `i+1 < Dim`: `A.c[i] = Factor·H.c[i]`, `B.c[i] = −Factor·H.c[i]`.
`A` and `B` are output parameters; entries not written keep the values of
the input matrices (the solver passes value-initialized, i.e. zero,
matrices). -/
def buildCrankNicolsonMatrices (Dim : ℕ) (H : tridiagonal_matrix_t K) (dt : K)
    (A B : tridiagonal_matrix_t K) :
    tridiagonal_matrix_t K × tridiagonal_matrix_t K :=
  let Factor : cplx_t K := ⟨0, dt / (2 * hBar)⟩
  ({ b := fun i =>
       if i < Dim then ConstexprMath.Complex.fromReal 1 + Factor * H.b i else A.b i
     a := fun i => if 0 < i ∧ i < Dim then Factor * H.a i else A.a i
     c := fun i => if i + 1 < Dim then Factor * H.c i else A.c i },
   { b := fun i =>
       if i < Dim then ConstexprMath.Complex.fromReal 1 - Factor * H.b i else B.b i
     a := fun i => if 0 < i ∧ i < Dim then -Factor * H.a i else B.a i
     c := fun i => if i + 1 < Dim then -Factor * H.c i else B.c i })

/-- `KetCat::multiplyTrigiagonal` (particle_in_a_box.h lines 190–215; the
free-function variant at lines 429–450 is identical):
`Result[i] = M.b[i]·x[i] + (i>0 ? M.a[i]·x[i−1] : 0) + (i+1<Dim ? M.c[i]·x[i+1] : 0)`. -/
def multiplyTrigiagonal (Dim : ℕ) (M : tridiagonal_matrix_t K) (x : state_vector_t K) :
    state_vector_t K :=
  fun i =>
    if i < Dim then
      M.b i * x i + (if 0 < i then M.a i * x (i - 1) else 0) +
        (if i + 1 < Dim then M.c i * x (i + 1) else 0)
    else 0

/-- Back-substitution loop of `KetCat::solveTridiagonal`
(particle_in_a_box.h line 253).  Unlike the free-function variant, the loop
body reads the SUBdiagonal:
`Result[i] = (psi'[i] − M[SubDiagonal][i]·Result[i+1]) / b'[i]`,
i.e. `M.a` where the Thomas algorithm requires `M.c`. -/
def thomasBackK (M : tridiagonal_matrix_t K) (d : state_vector_t K) (Dim : ℕ) :
    ℕ → cplx_t K
  | 0 => thomasRhs M d (Dim - 1) / thomasMain M (Dim - 1)
  | j + 1 =>
    (thomasRhs M d (Dim - 1 - (j + 1)) - M.a (Dim - 1 - (j + 1)) * thomasBackK M d Dim j) /
      thomasMain M (Dim - 1 - (j + 1))

/-- `KetCat::solveTridiagonal<Dim>` (particle_in_a_box.h lines 230–257):
same forward elimination as the free-function variant, but the back
substitution uses `M[SubDiagonal][i]` (see `thomasBackK`). -/
def solveTridiagonal (Dim : ℕ) (M : tridiagonal_matrix_t K) (psi : state_vector_t K) :
    state_vector_t K :=
  fun i => if i < Dim then thomasBackK M psi Dim (Dim - 1 - i) else 0

end KetCat

/-- Concrete failing input for the KetCat solver variant: the tridiagonal
matrix with main diagonal (1, 1), upper-diagonal entry `c 0 = 1`, zero
subdiagonal — i.e. rows (1 1 ; 0 1). -/
def failM : tridiagonal_matrix_t ℚ :=
  { a := fun _ => 0, b := fun _ => 1, c := fun i => if i = 0 then 1 else 0 }

/-- Right-hand side (0, 1) for the failing input. -/
def failD : state_vector_t ℚ := fun i => if i = 1 then 1 else 0

def C4M1 : tridiagonal_matrix_t ℚ := { a := fun _ => 0, b := fun _ => 1, c := fun _ => 0 }

def C4M2 : tridiagonal_matrix_t ℚ :=
  { a := fun _ => 0, b := fun _ => 1, c := fun i => if i = 0 then 1 else 0 }

def C4M3 : tridiagonal_matrix_t ℚ :=
  { a := fun i => if i = 0 then ⟨5, 0⟩ else 0, b := fun _ => 1,
    c := fun i => if i = 1 then ⟨7, 0⟩ else 0 }

def e1q : state_vector_t ℚ := fun i => if i = 1 then 1 else 0

namespace ConstexprMath

/-- `ConstexprMath::Pi` (constexpr_trigon.h): the literal double constant. -/
def Pi {K : Type} [LinearOrderedField K] : K := 3.141592653589793238462643383279502884

/-- `sin_poly` (constexpr_trigon.h lines 45–55): truncated Taylor polynomial
for sin around 0, built by successive term updates
`term *= -x²/6, -x²/20, -x²/42, -x²/72, -x²/110`. -/
def sin_poly {K : Type} [LinearOrderedField K] (x : K) : K :=
  let x2 := x * x
  let t1 := x * (-x2 / 6)
  let t2 := t1 * (-x2 / 20)
  let t3 := t2 * (-x2 / 42)
  let t4 := t3 * (-x2 / 72)
  let t5 := t4 * (-x2 / 110)
  x + t1 + t2 + t3 + t4 + t5

/-- `cos_poly` (constexpr_trigon.h lines 59–69): truncated Taylor polynomial
for cos around 0, term updates `-x²/2` then `*= -x²/12, -x²/30, -x²/56,
-x²/90, -x²/132`. -/
def cos_poly {K : Type} [LinearOrderedField K] (x : K) : K :=
  let x2 := x * x
  let t1 := -x2 / 2
  let t2 := t1 * (-x2 / 12)
  let t3 := t2 * (-x2 / 30)
  let t4 := t3 * (-x2 / 56)
  let t5 := t4 * (-x2 / 90)
  let t6 := t5 * (-x2 / 132)
  1 + t1 + t2 + t3 + t4 + t5 + t6

/-- `reduce_quadrant` (constexpr_trigon.h lines 75–81): `k =
floor_constexpr((x + π/4)/(π/2))` (the int32 truncation trick equals the
mathematical floor on its range), remainder `xr = x − k·(π/2)`, and quadrant
`static_cast<int>(k) & 3`, which on a two's-complement int is exactly
`k mod 4` (the nonnegative remainder). Returns (quadrant, xr). -/
def reduce_quadrant {K : Type} [LinearOrderedField K] [FloorRing K] (x : K) : ℤ × K :=
  let k : ℤ := ⌊(x + Pi / 4) / (Pi / 2)⌋
  (k % 4, x - (k : K) * (Pi / 2))

/-- `sin_constexpr` (constexpr_trigon.h lines 84–94): quadrant-aware sine;
the trailing `0` is the source's unreachable `return 0.0`. -/
def sin_constexpr {K : Type} [LinearOrderedField K] [FloorRing K] (x : K) : K :=
  let q := (reduce_quadrant x).1
  let xr := (reduce_quadrant x).2
  if q = 0 then sin_poly xr
  else if q = 1 then cos_poly xr
  else if q = 2 then -sin_poly xr
  else if q = 3 then -cos_poly xr
  else 0

/-- `cos_constexpr` (constexpr_trigon.h lines 97–107). -/
def cos_constexpr {K : Type} [LinearOrderedField K] [FloorRing K] (x : K) : K :=
  let q := (reduce_quadrant x).1
  let xr := (reduce_quadrant x).2
  if q = 0 then cos_poly xr
  else if q = 1 then -sin_poly xr
  else if q = 2 then -cos_poly xr
  else if q = 3 then sin_poly xr
  else 0

end ConstexprMath

namespace KetCat

/-- `KetCat::StateVector::normalize_with_dx` (state_vector.h lines 82–106):
accumulate `Norm2 = Σ|ψᵢ|²`, multiply by `dx`, and when `Norm2 > 0` rescale
every stored amplitude by `Inv = 1/sqrt(Norm2)`; otherwise leave the vector
untouched.  `ConstexprMath::sqrt` (constexpr Newton–Raphson) is modelled by
the abstract square-root parameter `sqrtf`; the claims instantiate it with
`Real.sqrt`. -/
def StateVector.normalize_with_dx {K : Type} [LinearOrderedField K] (sqrtf : K → K)
    (Dim : ℕ) (psi : state_vector_t K) (dx : K) : state_vector_t K :=
  let Norm2 : K := (∑ i in Finset.range Dim, (psi i).normSquared) * dx
  if 0 < Norm2 then
    fun i => if i < Dim then (psi i).smul (1 / sqrtf Norm2) else psi i
  else psi

end KetCat

def wpsi : state_vector_t ℝ := fun i => if i = 0 then ⟨1, 0⟩ else 0

section GateEngine

variable {K : Type} [LinearOrderedField K]

/-- `apply_unitary` (include/engine/quantum_gate_helpers.h lines 73–94):
dense matrix–vector product over the local block,
`result[i] = Σ_j U[i][j]·v[j]`, zero outside the block. -/
def apply_unitary (Dim : ℕ) (U : matrix_t K) (v : state_vector_t K) : state_vector_t K :=
  fun i => if i < Dim then ∑ j in Finset.range Dim, U i j * v j else 0

/-- `is_unitary` (include/engine/quantum_gate_helpers.h lines 42–70): the
componentwise tolerance check that `M·M† = I`, with
`sum = Σ_k M[k][i].conj()·M[k][j]`, epsilon `1E-9`, diagonal compared to
`1 + 0i` and off-diagonal to `0 + 0i`. -/
def is_unitary (N : ℕ) (M : matrix_t K) : Prop :=
  ∀ i, i < N → ∀ j, j < N →
    (i = j →
      |(∑ k in Finset.range N, (M k i).conj * M k j).re - 1| ≤ 1 / 1000000000 ∧
      |(∑ k in Finset.range N, (M k i).conj * M k j).im| ≤ 1 / 1000000000) ∧
    (i ≠ j →
      |(∑ k in Finset.range N, (M k i).conj * M k j).re| ≤ 1 / 1000000000 ∧
      |(∑ k in Finset.range N, (M k i).conj * M k j).im| ≤ 1 / 1000000000)

/-- The mask loop of `QuantumGateOp::operator()` (part_007 lines 98–104):
`affectedMask |= dimension_t(1) << bitPos[i]` over the k affected bits. -/
def affectedMask (k : ℕ) (bits : qbit_list_t) : ℕ :=
  (List.range k).foldl (fun m i => m ||| (1 <<< bits i)) 0

/-- The gather/scatter index map of `QuantumGateOp::operator()` (part_007
lines 127–135): starting from `base`, OR in `1 << bitPos[q]` for every `q`
with bit `q` of `localIdx` set. -/
def globalIdx (k : ℕ) (bits : qbit_list_t) (base localIdx : ℕ) : ℕ :=
  (List.range k).foldl
    (fun g q => if localIdx.testBit q then g ||| (1 <<< bits q) else g) base

/-- The scatter loop of `QuantumGateOp::operator()` (part_007 lines
151–162): sequential writes `result[globalIdx] = localOut[localIdx]`. -/
def scatterBlock (k : ℕ) (bits : qbit_list_t) (base : ℕ)
    (localOut : state_vector_t K) (r : state_vector_t K) : state_vector_t K :=
  (List.range (2 ^ k)).foldl
    (fun r localIdx =>
      Function.update r (globalIdx k bits base localIdx) (localOut localIdx)) r

/-- One block of `QuantumGateOp::operator()` (part_007 lines 119–162):
gather the 2^k local amplitudes from the current result array (`localIn`),
apply the gate matrix (`localOut = apply_unitary …`), scatter back. -/
def blockStep (k : ℕ) (U : matrix_t K) (bits : qbit_list_t) (base : ℕ)
    (r : state_vector_t K) : state_vector_t K :=
  scatterBlock k bits base
    (apply_unitary (2 ^ k) U (fun localIdx => r (globalIdx k bits base localIdx))) r

/-- `QuantumGateOp::operator()` (part_007 lines 85–166): `result = state`,
then for each `base` in `[0, StateCount)`, skip unless
`base & affectedMask == 0`, else gather/apply/scatter the block.
`bits` models the `affectedBits` list stored by the `QuantumGateOp`
constructor, which `QuantumGate::toBits` builds from exactly `QBitCount`
indices (the only validation it performs is the static count check). -/
def QuantumGateOp.app (k : ℕ) (U : matrix_t K) (bits : qbit_list_t) (StateCount : ℕ)
    (state : state_vector_t K) : state_vector_t K :=
  (List.range StateCount).foldl
    (fun r base =>
      if base &&& affectedMask k bits ≠ 0 then r else blockStep k U bits base r)
    state

end GateEngine

/-- Modelled from the spec: the k-bit local index of a global index `g`,
read off the target positions in list order — "local bit b corresponds to
target position list[b]". -/
def gatherBits (k : ℕ) (bits : qbit_list_t) (g : ℕ) : ℕ :=
  (List.range k).foldl (fun a q => if g.testBit (bits q) then a ||| (1 <<< q) else a) 0

/-- The non-target part of a global index: `g` with all bits of `mask`
cleared. Used to express "g and h agree on every non-target bit". -/
def stripMask (mask g : ℕ) : ℕ := g ^^^ (g &&& mask)

/-- Modelled from the spec: the dense 2^n×2^n Kronecker-expanded operator
`(I ⊗ … ⊗ U ⊗ … ⊗ I)` with the k-qubit `U` inserted at the tensor
positions of the target list: entry (g, h) is `U[g_T][h_T]` when `g` and
`h` agree on every non-target bit and 0 otherwise, where `g_T =
gatherBits k bits g` is the local row index read off the targets. -/
def kroneckerExpanded {K : Type} [LinearOrderedField K] (k : ℕ) (bits : qbit_list_t)
    (U : matrix_t K) : matrix_t K :=
  fun g h =>
    if stripMask (affectedMask k bits) g = stripMask (affectedMask k bits) h then
      U (gatherBits k bits g) (gatherBits k bits h)
    else 0

/-- Modelled from the spec: dense multiplication of a 2^n-dimensional state
vector by a 2^n×2^n operator. -/
def denseApply {K : Type} [LinearOrderedField K] (n : ℕ) (Op : matrix_t K)
    (psi : state_vector_t K) : state_vector_t K :=
  fun g => if g < 2 ^ n then ∑ h in Finset.range (2 ^ n), Op g h * psi h else 0

/-- The Pauli-X gate matrix over the embedded rationals (an exactly unitary
1-qubit gate, used as a concrete instance). -/
def Xmat : matrix_t ℚ :=
  fun i j => if (i = 0 ∧ j = 1) ∨ (i = 1 ∧ j = 0) then 1 else 0

/-- The X⊗X two-qubit gate matrix (antidiagonal ones). -/
def XXmat : matrix_t ℚ :=
  fun i j => if i < 4 ∧ j < 4 ∧ i + j = 3 then 1 else 0

/-- The basis state |0…0⟩: amplitude 1 at index 0. -/
def psi0 : state_vector_t ℚ := fun g => if g = 0 then 1 else 0

/-- A diagonal matrix diag(1 + 4·10⁻¹⁰, 1): not unitary, but within the
1e-9 componentwise tolerance of the `is_unitary` check. -/
def Ueps : matrix_t ℚ :=
  fun i j =>
    if i = 0 ∧ j = 0 then ⟨1 + 1 / 2500000000, 0⟩
    else if i = 1 ∧ j = 1 then 1 else 0


/-!
Theorems.  The embedding above is fixed; everything below proves or
refutes the specification claims about it.
-/

namespace ConstexprMath.Complex

/-- For a nonzero complex divisor the conjugate-denominator division formula
of `operator/` is an exact inverse of multiplication: `(z / w) * w = z`.
This is the algebraic fact the Thomas algorithm's elimination step relies on. -/
theorem div_mul_cancel_of_ne {K : Type} [LinearOrderedField K]
    (z w : Complex K) (hw : w ≠ 0) : z / w * w = z := by
  have hd : w.re * w.re + w.im * w.im ≠ 0 := by
    intro h
    apply hw
    have h1 : w.re = 0 := by nlinarith [mul_self_nonneg w.re, mul_self_nonneg w.im]
    have h2 : w.im = 0 := by nlinarith [mul_self_nonneg w.re, mul_self_nonneg w.im]
    ext <;> simp [h1, h2]
  ext
  · simp only [mul_re, div_re, div_im]
    field_simp
    ring
  · simp only [mul_im, div_re, div_im]
    field_simp
    ring

end ConstexprMath.Complex

/-- Back-substitution relations of the free-function `solveTridiagonal`:
with nonzero eliminated pivots, `b'[D−1]·x[D−1] = psi'[D−1]` and
`b'[i]·x[i] + c[i]·x[i+1] = psi'[i]` for `i < D−1`. -/
theorem thomas_back_rel {K : Type} [LinearOrderedField K] (Dim : ℕ)
    (M : tridiagonal_matrix_t K) (d : state_vector_t K)
    (hpiv : ∀ i, i < Dim → thomasMain M i ≠ 0) (i : ℕ) (hi : i < Dim) :
    (i + 1 = Dim → thomasMain M i * solveTridiagonal Dim M d i = thomasRhs M d i) ∧
    (i + 1 < Dim → thomasMain M i * solveTridiagonal Dim M d i
        + M.c i * solveTridiagonal Dim M d (i + 1) = thomasRhs M d i) := by
  constructor
  · intro hlast
    have h0 : Dim - 1 - i = 0 := by omega
    have hD1 : Dim - 1 = i := by omega
    simp only [solveTridiagonal, hi, if_true]
    rw [h0, thomasBack, hD1, mul_comm]
    exact ConstexprMath.Complex.div_mul_cancel_of_ne _ _ (hpiv i hi)
  · intro hnext
    obtain ⟨j, hj⟩ : ∃ j, Dim - 1 - i = j + 1 := ⟨Dim - 2 - i, by omega⟩
    have hji : Dim - 1 - (j + 1) = i := by omega
    have hj2 : Dim - 1 - (i + 1) = j := by omega
    simp only [solveTridiagonal, hi, hnext, if_true, hj, hj2, thomasBack, hji]
    rw [mul_comm (thomasMain M i)]
    rw [ConstexprMath.Complex.div_mul_cancel_of_ne _ _ (hpiv i hi)]
    ring

/-- Thomas-algorithm correctness of the free-function `solveTridiagonal`:
whenever no eliminated pivot is zero, the returned vector `x` satisfies
`A·x = d` (the tridiagonal product of the original matrix with `x` gives
back the right-hand side). -/
theorem solveTridiagonal_solves {K : Type} [LinearOrderedField K] (Dim : ℕ)
    (M : tridiagonal_matrix_t K) (d : state_vector_t K)
    (hpiv : ∀ i, i < Dim → thomasMain M i ≠ 0) :
    ∀ i, i < Dim → KetCat.multiplyTrigiagonal Dim M (solveTridiagonal Dim M d) i = d i := by
  intro i hi
  match i with
  | 0 =>
    simp only [KetCat.multiplyTrigiagonal, hi, if_true, Nat.lt_irrefl, if_false, zero_add,
      add_zero]
    by_cases h1 : 0 + 1 < Dim
    · have hrel := (thomas_back_rel Dim M d hpiv 0 hi).2 h1
      have hb0 : thomasMain M 0 = M.b 0 := by rw [thomasMain]
      have hr0 : thomasRhs M d 0 = d 0 := by rw [thomasRhs]
      simp only [h1, if_true]
      linear_combination hrel - solveTridiagonal Dim M d 0 * hb0 + hr0
    · have hlast : 0 + 1 = Dim := by omega
      have hrel := (thomas_back_rel Dim M d hpiv 0 hi).1 hlast
      have hb0 : thomasMain M 0 = M.b 0 := by rw [thomasMain]
      have hr0 : thomasRhs M d 0 = d 0 := by rw [thomasRhs]
      simp only [h1, if_false]
      linear_combination hrel - solveTridiagonal Dim M d 0 * hb0 + hr0
  | j + 1 =>
    have hjD : j < Dim := by omega
    have h3 : M.a (j + 1) / thomasMain M j * thomasMain M j = M.a (j + 1) :=
      ConstexprMath.Complex.div_mul_cancel_of_ne _ _ (hpiv j hjD)
    have h1 := (thomas_back_rel Dim M d hpiv j hjD).2 hi
    have hbm : thomasMain M (j + 1) = M.b (j + 1) - M.a (j + 1) / thomasMain M j * M.c j := by
      rw [thomasMain]
    have hrr : thomasRhs M d (j + 1) = d (j + 1)
        - M.a (j + 1) / thomasMain M j * thomasRhs M d j := by
      rw [thomasRhs]
    simp only [KetCat.multiplyTrigiagonal, hi, if_true, Nat.zero_lt_succ, Nat.add_sub_cancel]
    by_cases h2 : j + 1 + 1 < Dim
    · have hrel2 := (thomas_back_rel Dim M d hpiv (j + 1) hi).2 h2
      simp only [h2, if_true]
      linear_combination hrel2 - solveTridiagonal Dim M d (j + 1) * hbm + hrr
        + M.a (j + 1) / thomasMain M j * h1 - solveTridiagonal Dim M d j * h3
    · have hlast : j + 1 + 1 = Dim := by omega
      have hrel2 := (thomas_back_rel Dim M d hpiv (j + 1) hi).1 hlast
      simp only [h2, if_false]
      linear_combination hrel2 - solveTridiagonal Dim M d (j + 1) * hbm + hrr
        + M.a (j + 1) / thomasMain M j * h1 - solveTridiagonal Dim M d j * h3

/-- C1: evaluation at the failing input.  For the 2×2 system
(1 1; 0 1)·x = (0, 1) every eliminated pivot is 1 (nonzero), yet
`KetCat::solveTridiagonal` returns x = (0, 1), whose product with the
matrix is (1, 1) ≠ (0, 1): its back substitution reads the subdiagonal
where the Thomas algorithm (and the claim) requires the superdiagonal.
The free-function `solveTridiagonal` on the same input does return a
solution of A·x = d (x = (−1, 1)), as the claim states. -/
theorem C1_ketcat_solveTridiagonal_fails_eval :
    (∀ i, i < 2 → thomasMain failM i ≠ 0) ∧
    KetCat.multiplyTrigiagonal 2 failM (KetCat.solveTridiagonal 2 failM failD) 0 ≠ failD 0 ∧
    KetCat.multiplyTrigiagonal 2 failM (solveTridiagonal 2 failM failD) 0 = failD 0 ∧
    KetCat.multiplyTrigiagonal 2 failM (solveTridiagonal 2 failM failD) 1 = failD 1 := by
  refine ⟨?_, ?_, ?_, ?_⟩
  · intro i hi
    interval_cases i <;>
      simp [thomasMain, failM, ConstexprMath.Complex.ext_iff]
  · simp [KetCat.multiplyTrigiagonal, KetCat.solveTridiagonal, KetCat.thomasBackK, thomasRhs,
      thomasMain, failM, failD, ConstexprMath.Complex.ext_iff]
  · simp [KetCat.multiplyTrigiagonal, solveTridiagonal, thomasBack, thomasRhs, thomasMain,
      failM, failD, ConstexprMath.Complex.ext_iff]
  · simp [KetCat.multiplyTrigiagonal, solveTridiagonal, thomasBack, thomasRhs, thomasMain,
      failM, failD, ConstexprMath.Complex.ext_iff]

/-- C6: for every positive mass `m`, step `dx`, dimension and potential
functor `V`, the Hamiltonian constructor with `α = ħ²/(2·m·dx²)` (and
`ħ = 1`) sets main diagonal `[i] = 2α + V(i·dx)`, superdiagonal `[i] = −α`
when `i+1 < D`, subdiagonal `[i] = −α` when `i > 0`.  (The witness
instantiates the "in particular" case m = 1, dx = 1, zero potential,
D = 3, where α = 1/2 and the main diagonal is all ones.) -/
theorem C6_hamiltonian_entries {K : Type} [LinearOrderedField K] (m dx : K)
    (hm : 0 < m) (hdx : 0 < dx) (Dim : ℕ) (V : K → K) (i : ℕ) (hi : i < Dim) :
    (KetCat.Hamiltonian Dim m dx V).b i
      = ConstexprMath.Complex.fromReal
          (2 * (KetCat.hBar ^ 2 / (2 * m * dx ^ 2)) + V ((i : K) * dx)) ∧
    (i + 1 < Dim → (KetCat.Hamiltonian Dim m dx V).c i
      = ConstexprMath.Complex.fromReal (-(KetCat.hBar ^ 2 / (2 * m * dx ^ 2)))) ∧
    (0 < i → (KetCat.Hamiltonian Dim m dx V).a i
      = ConstexprMath.Complex.fromReal (-(KetCat.hBar ^ 2 / (2 * m * dx ^ 2)))) := by
  have halpha : (KetCat.hBar : K) * KetCat.hBar / (2 * m * dx * dx)
      = KetCat.hBar ^ 2 / (2 * m * dx ^ 2) := by ring_nf
  refine ⟨?_, fun hsup => ?_, fun hsub => ?_⟩
  · simp only [KetCat.Hamiltonian, hi, if_true, halpha]
  · simp only [KetCat.Hamiltonian, hsup, if_true, halpha]
  · have hgu : 0 < i ∧ i < Dim := ⟨hsub, hi⟩
    simp only [KetCat.Hamiltonian, hgu, and_self, if_true, halpha]

/-- C10: the tridiagonal Hamiltonian built by the constructor is real and
symmetric: every stored entry has zero imaginary part, and for `0 < i < D`
the subdiagonal entry at `i` equals the superdiagonal entry at `i−1`,
both being `−α`. -/
theorem C10_hamiltonian_real_symmetric {K : Type} [LinearOrderedField K] (m dx : K)
    (hm : 0 < m) (hdx : 0 < dx) (Dim : ℕ) (V : K → K) :
    (∀ i, ((KetCat.Hamiltonian Dim m dx V).a i).im = 0
        ∧ ((KetCat.Hamiltonian Dim m dx V).b i).im = 0
        ∧ ((KetCat.Hamiltonian Dim m dx V).c i).im = 0) ∧
    (∀ i, 0 < i → i < Dim →
      (KetCat.Hamiltonian Dim m dx V).a i = (KetCat.Hamiltonian Dim m dx V).c (i - 1) ∧
      (KetCat.Hamiltonian Dim m dx V).a i
        = ConstexprMath.Complex.fromReal (-(KetCat.hBar ^ 2 / (2 * m * dx ^ 2)))) := by
  have halpha : (KetCat.hBar : K) * KetCat.hBar / (2 * m * dx * dx)
      = KetCat.hBar ^ 2 / (2 * m * dx ^ 2) := by ring_nf
  constructor
  · intro i
    refine ⟨?_, ?_, ?_⟩ <;>
      · simp only [KetCat.Hamiltonian]
        split <;> simp
  · intro i h0 hD
    have hgu : 0 < i ∧ i < Dim := ⟨h0, hD⟩
    have hic : i - 1 + 1 < Dim := by omega
    refine ⟨?_, ?_⟩
    · simp only [KetCat.Hamiltonian, hgu, and_self, if_true, hic]
    · simp only [KetCat.Hamiltonian, hgu, and_self, if_true, halpha]

/-- C7: building the Crank–Nicolson matrices with `Factor = i·dt/(2ħ)`
gives, for every index `i < D`: `A.main[i] = 1 + Factor·H.main[i]`,
`B.main[i] = 1 − Factor·H.main[i]`; for `i > 0` `A.sub[i] = Factor·H.sub[i]`
and `B.sub[i] = −Factor·H.sub[i]`; for `i+1 < D` the same on the
superdiagonal — i.e. `A = I + Factor·H`, `B = I − Factor·H` diagonal-wise,
the identity contributing `1 + 0i` only on the main diagonal. -/
theorem C7_crank_nicolson_build {K : Type} [LinearOrderedField K] (Dim : ℕ)
    (H : tridiagonal_matrix_t K) (dt : K) (A0 B0 : tridiagonal_matrix_t K)
    (i : ℕ) (hi : i < Dim) :
    (KetCat.buildCrankNicolsonMatrices Dim H dt A0 B0).1.b i
        = ConstexprMath.Complex.fromReal 1
          + (⟨0, dt / (2 * KetCat.hBar)⟩ : cplx_t K) * H.b i ∧
    (KetCat.buildCrankNicolsonMatrices Dim H dt A0 B0).2.b i
        = ConstexprMath.Complex.fromReal 1
          - (⟨0, dt / (2 * KetCat.hBar)⟩ : cplx_t K) * H.b i ∧
    (0 < i →
      (KetCat.buildCrankNicolsonMatrices Dim H dt A0 B0).1.a i
          = (⟨0, dt / (2 * KetCat.hBar)⟩ : cplx_t K) * H.a i ∧
      (KetCat.buildCrankNicolsonMatrices Dim H dt A0 B0).2.a i
          = -((⟨0, dt / (2 * KetCat.hBar)⟩ : cplx_t K) * H.a i)) ∧
    (i + 1 < Dim →
      (KetCat.buildCrankNicolsonMatrices Dim H dt A0 B0).1.c i
          = (⟨0, dt / (2 * KetCat.hBar)⟩ : cplx_t K) * H.c i ∧
      (KetCat.buildCrankNicolsonMatrices Dim H dt A0 B0).2.c i
          = -((⟨0, dt / (2 * KetCat.hBar)⟩ : cplx_t K) * H.c i)) := by
  refine ⟨?_, ?_, fun hsub => ⟨?_, ?_⟩, fun hsup => ⟨?_, ?_⟩⟩
  · simp only [KetCat.buildCrankNicolsonMatrices, hi, if_true]
  · simp only [KetCat.buildCrankNicolsonMatrices, hi, if_true]
  · have hgu : 0 < i ∧ i < Dim := ⟨hsub, hi⟩
    simp only [KetCat.buildCrankNicolsonMatrices, hgu, and_self, if_true]
  · have hgu : 0 < i ∧ i < Dim := ⟨hsub, hi⟩
    simp only [KetCat.buildCrankNicolsonMatrices, hgu, and_self, if_true, neg_mul]
  · simp only [KetCat.buildCrankNicolsonMatrices, hsup, if_true]
  · simp only [KetCat.buildCrankNicolsonMatrices, hsup, if_true, neg_mul]

theorem thomasMain_congr {K : Type} [LinearOrderedField K] (Dim : ℕ)
    (M M2 : tridiagonal_matrix_t K) (hb : M2.b = M.b)
    (ha : ∀ i, i ≠ 0 → M2.a i = M.a i) (hc : ∀ i, i ≠ Dim - 1 → M2.c i = M.c i) :
    ∀ j, j < Dim → thomasMain M2 j = thomasMain M j := by
  intro j
  induction j with
  | zero => intro _; simp only [thomasMain, hb]
  | succ j ih =>
    intro hj
    simp only [thomasMain, hb, ha (j + 1) (by omega), hc j (by omega), ih (by omega)]

theorem thomasRhs_congr {K : Type} [LinearOrderedField K] (Dim : ℕ)
    (M M2 : tridiagonal_matrix_t K) (d : state_vector_t K) (hb : M2.b = M.b)
    (ha : ∀ i, i ≠ 0 → M2.a i = M.a i) (hc : ∀ i, i ≠ Dim - 1 → M2.c i = M.c i) :
    ∀ j, j < Dim → thomasRhs M2 d j = thomasRhs M d j := by
  intro j
  induction j with
  | zero => intro _; simp only [thomasRhs]
  | succ j ih =>
    intro hj
    simp only [thomasRhs, ha (j + 1) (by omega), ih (by omega),
      thomasMain_congr Dim M M2 hb ha hc j (by omega)]

theorem thomasBack_congr {K : Type} [LinearOrderedField K] (Dim : ℕ) (hD : 1 ≤ Dim)
    (M M2 : tridiagonal_matrix_t K) (d : state_vector_t K) (hb : M2.b = M.b)
    (ha : ∀ i, i ≠ 0 → M2.a i = M.a i) (hc : ∀ i, i ≠ Dim - 1 → M2.c i = M.c i) :
    ∀ j, j ≤ Dim - 1 → thomasBack M2 d Dim j = thomasBack M d Dim j := by
  intro j
  induction j with
  | zero =>
    intro _
    simp only [thomasBack, thomasRhs_congr Dim M M2 d hb ha hc (Dim - 1) (by omega),
      thomasMain_congr Dim M M2 hb ha hc (Dim - 1) (by omega)]
  | succ j ih =>
    intro hj
    simp only [thomasBack, thomasRhs_congr Dim M M2 d hb ha hc (Dim - 1 - (j + 1)) (by omega),
      thomasMain_congr Dim M M2 hb ha hc (Dim - 1 - (j + 1)) (by omega),
      hc (Dim - 1 - (j + 1)) (by omega), ih (by omega)]

/-- C4 (amended): the unused placeholders of the compact tridiagonal
storage are index 0 of the SUBdiagonal (`a 0`) and index `D−1` of the
SUPERdiagonal (`c (D−1)`) — the claim has the two swapped.  The
Hamiltonian constructor and the Crank–Nicolson build (on zero-initialized
outputs) store only zero there, and `multiplyTrigiagonal` and the
free-function `solveTridiagonal` never read them: their outputs are
invariant under arbitrary changes of those two entries.
(`KetCat::solveTridiagonal` is the exception: its buggy back substitution
— the C1 code bug — does read `a 0`.) -/
theorem C4_amended_unused_placeholders {K : Type} [LinearOrderedField K] (Dim : ℕ)
    (hD : 1 ≤ Dim) (m dx dt : K) (V : K → K) (H M M2 : tridiagonal_matrix_t K)
    (x d : state_vector_t K) (hb : M2.b = M.b) (ha : ∀ i, i ≠ 0 → M2.a i = M.a i)
    (hc : ∀ i, i ≠ Dim - 1 → M2.c i = M.c i) :
    ((KetCat.Hamiltonian Dim m dx V).a 0 = 0 ∧
      (KetCat.Hamiltonian Dim m dx V).c (Dim - 1) = 0) ∧
    ((KetCat.buildCrankNicolsonMatrices Dim H dt (zeroTri K) (zeroTri K)).1.a 0 = 0 ∧
      (KetCat.buildCrankNicolsonMatrices Dim H dt (zeroTri K) (zeroTri K)).1.c (Dim - 1) = 0 ∧
      (KetCat.buildCrankNicolsonMatrices Dim H dt (zeroTri K) (zeroTri K)).2.a 0 = 0 ∧
      (KetCat.buildCrankNicolsonMatrices Dim H dt (zeroTri K) (zeroTri K)).2.c (Dim - 1) = 0) ∧
    KetCat.multiplyTrigiagonal Dim M2 x = KetCat.multiplyTrigiagonal Dim M x ∧
    solveTridiagonal Dim M2 d = solveTridiagonal Dim M d ∧
    KetCat.solveTridiagonal 2 C4M3 e1q 0 ≠ KetCat.solveTridiagonal 2 C4M1 e1q 0 := by
  have hcd : ¬(Dim - 1 + 1 < Dim) := by omega
  refine ⟨⟨?_, ?_⟩, ⟨?_, ?_, ?_, ?_⟩, ?_, ?_, ?_⟩
  · simp [KetCat.Hamiltonian]
  · simp [KetCat.Hamiltonian, hcd]
  · simp [KetCat.buildCrankNicolsonMatrices, zeroTri]
  · simp [KetCat.buildCrankNicolsonMatrices, zeroTri, hcd]
  · simp [KetCat.buildCrankNicolsonMatrices, zeroTri]
  · simp [KetCat.buildCrankNicolsonMatrices, zeroTri, hcd]
  · funext i
    by_cases hi : i < Dim
    · have h1 : M2.b i * x i = M.b i * x i := by rw [hb]
      have h2 : (if 0 < i then M2.a i * x (i - 1) else 0)
          = (if 0 < i then M.a i * x (i - 1) else 0) := by
        by_cases h0 : 0 < i
        · simp only [h0, if_true, ha i (by omega)]
        · simp [h0]
      have h3 : (if i + 1 < Dim then M2.c i * x (i + 1) else 0)
          = (if i + 1 < Dim then M.c i * x (i + 1) else 0) := by
        by_cases hs : i + 1 < Dim
        · simp only [hs, if_true, hc i (by omega)]
        · simp [hs]
      simp only [KetCat.multiplyTrigiagonal, hi, if_true, h1, h2, h3]
    · simp [KetCat.multiplyTrigiagonal, hi]
  · funext i
    by_cases hi : i < Dim
    · simp only [solveTridiagonal, hi, if_true,
        thomasBack_congr Dim hD M M2 d hb ha hc (Dim - 1 - i) (by omega)]
    · simp [solveTridiagonal, hi]
  · simp [KetCat.solveTridiagonal, KetCat.thomasBackK, thomasRhs, thomasMain, C4M3, C4M1,
      e1q, ConstexprMath.Complex.ext_iff]

/-- C4 counterexample: the claim says index 0 of the superdiagonal is an
unused placeholder (never read, never meaningfully written).  In fact the
Hamiltonian constructor stores `−α = −1/2` there (D = 2, m = dx = 1, zero
potential), and `multiplyTrigiagonal` reads it: two matrices that differ
only in `c 0` (`C4M1` and `C4M2`) produce different outputs. -/
theorem C4_counterexample_superdiag0_used :
    (KetCat.Hamiltonian 2 (1 : ℚ) 1 (fun _ => 0)).c 0
      = ConstexprMath.Complex.fromReal (-(1 / 2)) ∧
    KetCat.multiplyTrigiagonal 2 C4M1 e1q 0 ≠ KetCat.multiplyTrigiagonal 2 C4M2 e1q 0 := by
  constructor
  · norm_num [KetCat.Hamiltonian, KetCat.hBar, ConstexprMath.Complex.ext_iff]
  · simp [KetCat.multiplyTrigiagonal, C4M1, C4M2, e1q, ConstexprMath.Complex.ext_iff]

/-- C4 witness: the amended invariance theorem applied at a concrete
input: `C4M3` differs from `C4M1` exactly at `a 0` and `c 1` (= `c (D−1)`
for D = 2), and both the tridiagonal product and the free-function solve
agree on the two matrices. -/
theorem C4_amended_witness :
    KetCat.multiplyTrigiagonal 2 C4M3 e1q = KetCat.multiplyTrigiagonal 2 C4M1 e1q ∧
    solveTridiagonal 2 C4M3 e1q = solveTridiagonal 2 C4M1 e1q := by
  have h := C4_amended_unused_placeholders 2 (by norm_num) (1 : ℚ) 1 1 (fun _ => 0)
    C4M1 C4M1 C4M3 e1q e1q rfl
    (fun i hi => by simp [C4M3, C4M1, hi])
    (fun i hi => by
      have : i ≠ 1 := by simpa using hi
      simp [C4M3, C4M1, this])
  exact ⟨h.2.2.1, h.2.2.2.1⟩

/-- C6 witness: the entry formulas evaluated at m = 1, dx = 1, zero
potential, D = 3: α = 1/2, main diagonal entry 1, superdiagonal −1/2. -/
theorem C6_hamiltonian_witness :
    (0 : ℚ) < 1 ∧
    (KetCat.Hamiltonian 3 (1 : ℚ) 1 (fun _ => 0)).b 0 = ConstexprMath.Complex.fromReal 1 ∧
    (KetCat.Hamiltonian 3 (1 : ℚ) 1 (fun _ => 0)).b 1 = ConstexprMath.Complex.fromReal 1 ∧
    (KetCat.Hamiltonian 3 (1 : ℚ) 1 (fun _ => 0)).b 2 = ConstexprMath.Complex.fromReal 1 ∧
    (KetCat.Hamiltonian 3 (1 : ℚ) 1 (fun _ => 0)).c 0
      = ConstexprMath.Complex.fromReal (-(1 / 2)) ∧
    (KetCat.Hamiltonian 3 (1 : ℚ) 1 (fun _ => 0)).c 1
      = ConstexprMath.Complex.fromReal (-(1 / 2)) ∧
    (KetCat.Hamiltonian 3 (1 : ℚ) 1 (fun _ => 0)).a 1
      = ConstexprMath.Complex.fromReal (-(1 / 2)) ∧
    (KetCat.Hamiltonian 3 (1 : ℚ) 1 (fun _ => 0)).a 2
      = ConstexprMath.Complex.fromReal (-(1 / 2)) := by
  have h0 := C6_hamiltonian_entries (1 : ℚ) 1 (by norm_num) (by norm_num) 3 (fun _ => 0) 0
    (by norm_num)
  have h1 := C6_hamiltonian_entries (1 : ℚ) 1 (by norm_num) (by norm_num) 3 (fun _ => 0) 1
    (by norm_num)
  have h2 := C6_hamiltonian_entries (1 : ℚ) 1 (by norm_num) (by norm_num) 3 (fun _ => 0) 2
    (by norm_num)
  refine ⟨by norm_num, ?_, ?_, ?_, ?_, ?_, ?_, ?_⟩
  · rw [h0.1]
    norm_num [KetCat.hBar, ConstexprMath.Complex.ext_iff]
  · rw [h1.1]
    norm_num [KetCat.hBar, ConstexprMath.Complex.ext_iff]
  · rw [h2.1]
    norm_num [KetCat.hBar, ConstexprMath.Complex.ext_iff]
  · rw [h0.2.1 (by norm_num)]
    norm_num [KetCat.hBar, ConstexprMath.Complex.ext_iff]
  · rw [h1.2.1 (by norm_num)]
    norm_num [KetCat.hBar, ConstexprMath.Complex.ext_iff]
  · rw [h1.2.2 (by norm_num)]
    norm_num [KetCat.hBar, ConstexprMath.Complex.ext_iff]
  · rw [h2.2.2 (by norm_num)]
    norm_num [KetCat.hBar, ConstexprMath.Complex.ext_iff]

/-- C10 witness: at m = 1, dx = 1, zero potential, D = 3: zero imaginary
part of a stored entry, and subdiagonal[1] = superdiagonal[0]. -/
theorem C10_hamiltonian_witness :
    ((KetCat.Hamiltonian 3 (1 : ℚ) 1 (fun _ => 0)).b 0).im = 0 ∧
    (KetCat.Hamiltonian 3 (1 : ℚ) 1 (fun _ => 0)).a 1
      = (KetCat.Hamiltonian 3 (1 : ℚ) 1 (fun _ => 0)).c 0 := by
  have h := C10_hamiltonian_real_symmetric (1 : ℚ) 1 (by norm_num) (by norm_num) 3 (fun _ => 0)
  refine ⟨(h.1 0).2.1, ?_⟩
  have h2 := (h.2 1 (by norm_num) (by norm_num)).1
  simpa using h2

/-- C7 witness: for D = 1, H main diagonal 1, dt = 2 (ħ = 1): Factor = i
and `A.main[0] = 1 + i`. -/
theorem C7_crank_nicolson_witness :
    (KetCat.buildCrankNicolsonMatrices 1 C4M1 (2 : ℚ) (zeroTri ℚ) (zeroTri ℚ)).1.b 0
      = ⟨1, 1⟩ := by
  have h := (C7_crank_nicolson_build 1 C4M1 (2 : ℚ) (zeroTri ℚ) (zeroTri ℚ) 0 (by norm_num)).1
  rw [h]
  norm_num [C4M1, KetCat.hBar, ConstexprMath.Complex.ext_iff]

/-- C8: `sin_constexpr`/`cos_constexpr` first reduce the angle to
`k·(π/2) + remainder` with `remainder = x − ⌊(x+π/4)/(π/2)⌋·(π/2)`, then
select by `q = k mod 4`: q = 0 → (sin_poly, cos_poly); q = 1 →
(cos_poly, −sin_poly); q = 2 → (−sin_poly, −cos_poly); q = 3 →
(−cos_poly, sin_poly), applied to the remainder.  The right-hand sides
below spell out exactly that table (the final `else` covers q = 3 because
`k mod 4 ∈ [0, 4)`). -/
theorem C8_sin_cos_quadrant {K : Type} [LinearOrderedField K] [FloorRing K] (x : K) :
    (ConstexprMath.sin_constexpr x =
      (if (⌊(x + ConstexprMath.Pi / 4) / (ConstexprMath.Pi / 2)⌋ : ℤ) % 4 = 0 then
        ConstexprMath.sin_poly
          (x - (⌊(x + ConstexprMath.Pi / 4) / (ConstexprMath.Pi / 2)⌋ : ℤ) * (ConstexprMath.Pi / 2))
      else if (⌊(x + ConstexprMath.Pi / 4) / (ConstexprMath.Pi / 2)⌋ : ℤ) % 4 = 1 then
        ConstexprMath.cos_poly
          (x - (⌊(x + ConstexprMath.Pi / 4) / (ConstexprMath.Pi / 2)⌋ : ℤ) * (ConstexprMath.Pi / 2))
      else if (⌊(x + ConstexprMath.Pi / 4) / (ConstexprMath.Pi / 2)⌋ : ℤ) % 4 = 2 then
        -ConstexprMath.sin_poly
          (x - (⌊(x + ConstexprMath.Pi / 4) / (ConstexprMath.Pi / 2)⌋ : ℤ) * (ConstexprMath.Pi / 2))
      else
        -ConstexprMath.cos_poly
          (x - (⌊(x + ConstexprMath.Pi / 4) / (ConstexprMath.Pi / 2)⌋ : ℤ) * (ConstexprMath.Pi / 2)))) ∧
    (ConstexprMath.cos_constexpr x =
      (if (⌊(x + ConstexprMath.Pi / 4) / (ConstexprMath.Pi / 2)⌋ : ℤ) % 4 = 0 then
        ConstexprMath.cos_poly
          (x - (⌊(x + ConstexprMath.Pi / 4) / (ConstexprMath.Pi / 2)⌋ : ℤ) * (ConstexprMath.Pi / 2))
      else if (⌊(x + ConstexprMath.Pi / 4) / (ConstexprMath.Pi / 2)⌋ : ℤ) % 4 = 1 then
        -ConstexprMath.sin_poly
          (x - (⌊(x + ConstexprMath.Pi / 4) / (ConstexprMath.Pi / 2)⌋ : ℤ) * (ConstexprMath.Pi / 2))
      else if (⌊(x + ConstexprMath.Pi / 4) / (ConstexprMath.Pi / 2)⌋ : ℤ) % 4 = 2 then
        -ConstexprMath.cos_poly
          (x - (⌊(x + ConstexprMath.Pi / 4) / (ConstexprMath.Pi / 2)⌋ : ℤ) * (ConstexprMath.Pi / 2))
      else
        ConstexprMath.sin_poly
          (x - (⌊(x + ConstexprMath.Pi / 4) / (ConstexprMath.Pi / 2)⌋ : ℤ) * (ConstexprMath.Pi / 2)))) := by
  have h0 : 0 ≤ (⌊(x + ConstexprMath.Pi / 4) / (ConstexprMath.Pi / 2)⌋ : ℤ) % 4 :=
    Int.emod_nonneg _ (by norm_num)
  have h1 : (⌊(x + ConstexprMath.Pi / 4) / (ConstexprMath.Pi / 2)⌋ : ℤ) % 4 < 4 :=
    Int.emod_lt_of_pos _ (by norm_num)
  have hq : (⌊(x + ConstexprMath.Pi / 4) / (ConstexprMath.Pi / 2)⌋ : ℤ) % 4 = 0 ∨
      (⌊(x + ConstexprMath.Pi / 4) / (ConstexprMath.Pi / 2)⌋ : ℤ) % 4 = 1 ∨
      (⌊(x + ConstexprMath.Pi / 4) / (ConstexprMath.Pi / 2)⌋ : ℤ) % 4 = 2 ∨
      (⌊(x + ConstexprMath.Pi / 4) / (ConstexprMath.Pi / 2)⌋ : ℤ) % 4 = 3 := by omega
  rcases hq with h | h | h | h <;>
    constructor <;>
      simp [ConstexprMath.sin_constexpr, ConstexprMath.cos_constexpr,
        ConstexprMath.reduce_quadrant, h]

/-- C9: `normalize_with_dx` leaves every amplitude unchanged when the
accumulated norm `Σ|ψᵢ|²·dx` is ≤ 0 (no rescale, no division by zero);
otherwise it rescales every stored amplitude by `1/√(Σ|ψᵢ|²·dx)` so that
afterwards `Σ|ψᵢ|²·dx = 1` (exactly, arithmetic modelled exactly with
`Real.sqrt`). -/
theorem C9_normalize_with_dx_guard (Dim : ℕ) (psi : state_vector_t ℝ) (dx : ℝ) :
    ((∑ i in Finset.range Dim, (psi i).normSquared) * dx ≤ 0 →
      KetCat.StateVector.normalize_with_dx Real.sqrt Dim psi dx = psi) ∧
    (0 < (∑ i in Finset.range Dim, (psi i).normSquared) * dx →
      (∀ i, i < Dim →
        KetCat.StateVector.normalize_with_dx Real.sqrt Dim psi dx i
          = (psi i).smul
              (1 / Real.sqrt ((∑ j in Finset.range Dim, (psi j).normSquared) * dx))) ∧
      (∑ i in Finset.range Dim,
          (KetCat.StateVector.normalize_with_dx Real.sqrt Dim psi dx i).normSquared) * dx
        = 1) := by
  constructor
  · intro hle
    have hneg : ¬(0 < (∑ i in Finset.range Dim, (psi i).normSquared) * dx) := not_lt.mpr hle
    simp only [KetCat.StateVector.normalize_with_dx, hneg, if_false]
  · intro hpos
    constructor
    · intro i hi
      simp only [KetCat.StateVector.normalize_with_dx, hpos, if_true, hi]
    · have hs : Real.sqrt ((∑ i in Finset.range Dim, (psi i).normSquared) * dx) *
          Real.sqrt ((∑ i in Finset.range Dim, (psi i).normSquared) * dx)
          = (∑ i in Finset.range Dim, (psi i).normSquared) * dx :=
        Real.mul_self_sqrt (le_of_lt hpos)
      have hne : Real.sqrt ((∑ i in Finset.range Dim, (psi i).normSquared) * dx) ≠ 0 :=
        ne_of_gt (Real.sqrt_pos.mpr hpos)
      have hrw : ∀ i ∈ Finset.range Dim,
          (KetCat.StateVector.normalize_with_dx Real.sqrt Dim psi dx i).normSquared
            = (psi i).normSquared *
              ((1 / Real.sqrt ((∑ j in Finset.range Dim, (psi j).normSquared) * dx)) *
               (1 / Real.sqrt ((∑ j in Finset.range Dim, (psi j).normSquared) * dx))) := by
        intro i hi
        have hiD : i < Dim := Finset.mem_range.mp hi
        simp only [KetCat.StateVector.normalize_with_dx, hpos, if_true, hiD]
        simp only [ConstexprMath.Complex.normSquared, ConstexprMath.Complex.smul_re,
          ConstexprMath.Complex.smul_im]
        ring
      have hN : (∑ i in Finset.range Dim, (psi i).normSquared) * dx ≠ 0 := ne_of_gt hpos
      rw [Finset.sum_congr rfl hrw, ← Finset.sum_mul, one_div, ← mul_inv, hs]
      have hfin : (∑ i in Finset.range Dim, (psi i).normSquared) *
          ((∑ i in Finset.range Dim, (psi i).normSquared) * dx)⁻¹ * dx
          = ((∑ i in Finset.range Dim, (psi i).normSquared) * dx) *
            ((∑ i in Finset.range Dim, (psi i).normSquared) * dx)⁻¹ := by ring
      rw [hfin, mul_inv_cancel₀ hN]

/-- C9 witness: the positive-norm branch applied to the one-point vector
ψ = (1 + 0i) with dx = 1: the renormalized grid norm is 1. -/
theorem C9_normalize_witness :
    0 < (∑ i in Finset.range 1, (wpsi i).normSquared) * (1 : ℝ) ∧
    (∑ i in Finset.range 1,
        (KetCat.StateVector.normalize_with_dx Real.sqrt 1 wpsi 1 i).normSquared) * 1 = 1 := by
  have hpos : 0 < (∑ i in Finset.range 1, (wpsi i).normSquared) * (1 : ℝ) := by
    norm_num [wpsi, ConstexprMath.Complex.normSquared]
  exact ⟨hpos, ((C9_normalize_with_dx_guard 1 wpsi 1).2 hpos).2⟩

theorem affectedMask_succ (k : ℕ) (bits : qbit_list_t) :
    affectedMask (k + 1) bits = affectedMask k bits ||| (1 <<< bits k) := by
  unfold affectedMask
  rw [List.range_succ, List.foldl_append]
  rfl

theorem globalIdx_succ (k : ℕ) (bits : qbit_list_t) (base li : ℕ) :
    globalIdx (k + 1) bits base li =
      if li.testBit k then globalIdx k bits base li ||| (1 <<< bits k)
      else globalIdx k bits base li := by
  unfold globalIdx
  rw [List.range_succ, List.foldl_append]
  rfl

theorem gatherBits_succ (k : ℕ) (bits : qbit_list_t) (g : ℕ) :
    gatherBits (k + 1) bits g =
      if g.testBit (bits k) then gatherBits k bits g ||| (1 <<< k)
      else gatherBits k bits g := by
  unfold gatherBits
  rw [List.range_succ, List.foldl_append]
  rfl

theorem affectedMask_testBit (k : ℕ) (bits : qbit_list_t) (p : ℕ) :
    (affectedMask k bits).testBit p = true ↔ ∃ q, q < k ∧ bits q = p := by
  induction k with
  | zero =>
    simp [affectedMask]
  | succ k ih =>
    rw [affectedMask_succ]
    simp only [Nat.testBit_or, Bool.or_eq_true, ih, Nat.one_shiftLeft, Nat.testBit_two_pow]
    constructor
    · rintro (⟨q, hq, he⟩ | he)
      · exact ⟨q, by omega, he⟩
      · exact ⟨k, by omega, of_decide_eq_true he⟩
    · rintro ⟨q, hq, he⟩
      by_cases hqk : q < k
      · exact Or.inl ⟨q, hqk, he⟩
      · have : q = k := by omega
        subst this
        exact Or.inr (decide_eq_true he)

theorem gatherBits_testBit (k : ℕ) (bits : qbit_list_t) (g : ℕ) (q : ℕ) :
    (gatherBits k bits g).testBit q = (decide (q < k) && g.testBit (bits q)) := by
  induction k with
  | zero =>
    simp [gatherBits]
  | succ k ih =>
    rw [gatherBits_succ]
    by_cases hgk : g.testBit (bits k) = true
    · rw [if_pos hgk]
      simp only [Nat.testBit_or, ih, Nat.one_shiftLeft, Nat.testBit_two_pow]
      by_cases hq : q < k
      · have h1 : decide (q < k) = true := decide_eq_true hq
        have h2 : decide (q < k + 1) = true := decide_eq_true (by omega)
        have h3 : decide (k = q) = false := decide_eq_false (by omega)
        rw [h1, h2, h3]
        simp
      · by_cases hqk : q = k
        · subst hqk
          have h1 : decide (q < q) = false := decide_eq_false (by omega)
          have h2 : decide (q < q + 1) = true := decide_eq_true (by omega)
          have h3 : decide (q = q) = true := decide_eq_true rfl
        -- the new bit supplies exactly g.testBit (bits q)
          rw [h1, h2, h3]
          simp [hgk]
        · have h1 : decide (q < k) = false := decide_eq_false (by omega)
          have h2 : decide (q < k + 1) = false := decide_eq_false (by omega)
          have h3 : decide (k = q) = false := decide_eq_false (by omega)
          rw [h1, h2, h3]
          simp
    · have hgk' : g.testBit (bits k) = false := by
        cases h : g.testBit (bits k)
        · rfl
        · exact absurd h hgk
      rw [if_neg hgk, ih]
      by_cases hq : q < k
      · have h1 : decide (q < k) = true := decide_eq_true hq
        have h2 : decide (q < k + 1) = true := decide_eq_true (by omega)
        rw [h1, h2]
      · by_cases hqk : q = k
        · subst hqk
          have h1 : decide (q < q) = false := decide_eq_false (by omega)
          have h2 : decide (q < q + 1) = true := decide_eq_true (by omega)
          rw [h1, h2, hgk']
          simp
        · have h1 : decide (q < k) = false := decide_eq_false (by omega)
          have h2 : decide (q < k + 1) = false := decide_eq_false (by omega)
          rw [h1, h2]

theorem gatherBits_lt (k : ℕ) (bits : qbit_list_t) (g : ℕ) :
    gatherBits k bits g < 2 ^ k := by
  apply Nat.lt_pow_two_of_testBit
  intro i hi
  rw [gatherBits_testBit]
  have : decide (i < k) = false := decide_eq_false (by omega)
  rw [this]
  simp

theorem globalIdx_testBit (k : ℕ) (bits : qbit_list_t) (base li p : ℕ) :
    (globalIdx k bits base li).testBit p = true ↔
      base.testBit p = true ∨ ∃ q, q < k ∧ bits q = p ∧ li.testBit q = true := by
  induction k with
  | zero =>
    simp [globalIdx]
  | succ k ih =>
    rw [globalIdx_succ]
    by_cases hlk : li.testBit k = true
    · rw [if_pos hlk]
      simp only [Nat.testBit_or, Bool.or_eq_true, ih, Nat.one_shiftLeft, Nat.testBit_two_pow]
      constructor
      · rintro ((hb | ⟨q, hq, he, hl⟩) | he)
        · exact Or.inl hb
        · exact Or.inr ⟨q, by omega, he, hl⟩
        · exact Or.inr ⟨k, by omega, of_decide_eq_true he, hlk⟩
      · rintro (hb | ⟨q, hq, he, hl⟩)
        · exact Or.inl (Or.inl hb)
        · by_cases hqk : q < k
          · exact Or.inl (Or.inr ⟨q, hqk, he, hl⟩)
          · have : q = k := by omega
            subst this
            exact Or.inr (decide_eq_true he)
    · rw [if_neg hlk, ih]
      constructor
      · rintro (hb | ⟨q, hq, he, hl⟩)
        · exact Or.inl hb
        · exact Or.inr ⟨q, by omega, he, hl⟩
      · rintro (hb | ⟨q, hq, he, hl⟩)
        · exact Or.inl hb
        · by_cases hqk : q < k
          · exact Or.inr ⟨q, hqk, he, hl⟩
          · have : q = k := by omega
            subst this
            exact absurd hl hlk

theorem maskless_testBit {base mask p : ℕ} (h : base &&& mask = 0)
    (hp : mask.testBit p = true) : base.testBit p = false := by
  have h0 : (base &&& mask).testBit p = false := by rw [h]; simp
  rw [Nat.testBit_and, hp] at h0
  simpa using h0

theorem stripMask_testBit (mask g p : ℕ) :
    (stripMask mask g).testBit p = (g.testBit p && !mask.testBit p) := by
  unfold stripMask
  rw [Nat.testBit_xor, Nat.testBit_and]
  cases g.testBit p <;> cases mask.testBit p <;> rfl

theorem stripMask_land (mask g : ℕ) : stripMask mask g &&& mask = 0 := by
  apply Nat.eq_of_testBit_eq
  intro p
  rw [Nat.testBit_and, stripMask_testBit]
  cases g.testBit p <;> cases mask.testBit p <;> simp

theorem stripMask_lt (mask g n : ℕ) (hg : g < 2 ^ n) : stripMask mask g < 2 ^ n := by
  apply Nat.lt_pow_two_of_testBit
  intro i hi
  rw [stripMask_testBit, Nat.testBit_lt_two_pow (lt_of_lt_of_le hg (Nat.pow_le_pow_right (by omega) hi))]
  rfl

theorem globalIdx_lt (n k : ℕ) (bits : qbit_list_t) (base li : ℕ)
    (hbase : base < 2 ^ n) (hbits : ∀ q, q < k → bits q < n) :
    globalIdx k bits base li < 2 ^ n := by
  apply Nat.lt_pow_two_of_testBit
  intro i hi
  cases h : (globalIdx k bits base li).testBit i
  · rfl
  · rw [globalIdx_testBit] at h
    rcases h with hb | ⟨q, hq, he, _⟩
    · rw [Nat.testBit_lt_two_pow (lt_of_lt_of_le hbase (Nat.pow_le_pow_right (by omega) hi))] at hb
      cases hb
    · have := hbits q hq
      omega

theorem gatherBits_globalIdx (k : ℕ) (bits : qbit_list_t)
    (hdist : ∀ a b, a < k → b < k → bits a = bits b → a = b)
    (base li : ℕ) (hbase : base &&& affectedMask k bits = 0) (hli : li < 2 ^ k) :
    gatherBits k bits (globalIdx k bits base li) = li := by
  apply Nat.eq_of_testBit_eq
  intro q
  rw [gatherBits_testBit]
  by_cases hq : q < k
  · rw [decide_eq_true hq, Bool.true_and]
    cases hg : (globalIdx k bits base li).testBit (bits q)
    · cases hl : li.testBit q
      · rfl
      · exfalso
        have hcon : (globalIdx k bits base li).testBit (bits q) = true :=
          (globalIdx_testBit k bits base li (bits q)).mpr (Or.inr ⟨q, hq, rfl, hl⟩)
        rw [hg] at hcon
        cases hcon
    · have := (globalIdx_testBit k bits base li (bits q)).mp hg
      rcases this with hb | ⟨q2, hq2, he2, hl2⟩
      · exfalso
        have hmask : (affectedMask k bits).testBit (bits q) = true :=
          (affectedMask_testBit k bits (bits q)).mpr ⟨q, hq, rfl⟩
        rw [maskless_testBit hbase hmask] at hb
        cases hb
      · have : q2 = q := hdist q2 q hq2 hq he2
        subst this
        rw [hl2]
  · rw [decide_eq_false hq, Bool.false_and]
    have : li < 2 ^ q := lt_of_lt_of_le hli (Nat.pow_le_pow_right (by omega) (by omega))
    rw [Nat.testBit_lt_two_pow this]

theorem stripMask_globalIdx (k : ℕ) (bits : qbit_list_t) (base li : ℕ)
    (hbase : base &&& affectedMask k bits = 0) :
    stripMask (affectedMask k bits) (globalIdx k bits base li) = base := by
  apply Nat.eq_of_testBit_eq
  intro p
  rw [stripMask_testBit]
  by_cases hm : (affectedMask k bits).testBit p = true
  · rw [hm, maskless_testBit hbase hm]
    cases (globalIdx k bits base li).testBit p <;> rfl
  · have hm' : (affectedMask k bits).testBit p = false := by
      cases h : (affectedMask k bits).testBit p
      · rfl
      · exact absurd h hm
    rw [hm']
    cases hg : (globalIdx k bits base li).testBit p
    · cases hb : base.testBit p
      · rfl
      · exfalso
        have : (globalIdx k bits base li).testBit p = true :=
          (globalIdx_testBit k bits base li p).mpr (Or.inl hb)
        rw [hg] at this
        cases this
    · have := (globalIdx_testBit k bits base li p).mp hg
      rcases this with hb | ⟨q, hq, he, _⟩
      · simpa using hb.symm
      · exfalso
        have : (affectedMask k bits).testBit p = true :=
          (affectedMask_testBit k bits p).mpr ⟨q, hq, he⟩
        rw [hm'] at this
        cases this

theorem globalIdx_stripMask_gatherBits (k : ℕ) (bits : qbit_list_t) (g : ℕ) :
    globalIdx k bits (stripMask (affectedMask k bits) g) (gatherBits k bits g) = g := by
  apply Nat.eq_of_testBit_eq
  intro p
  cases hg : g.testBit p
  · cases hres : (globalIdx k bits (stripMask (affectedMask k bits) g)
        (gatherBits k bits g)).testBit p
    · rfl
    · exfalso
      have := (globalIdx_testBit k bits _ _ p).mp hres
      rcases this with hb | ⟨q, hq, he, hl⟩
      · rw [stripMask_testBit, hg] at hb
        cases hb
      · rw [gatherBits_testBit, he, hg] at hl
        simp at hl
  · apply (globalIdx_testBit k bits _ _ p).mpr
    by_cases hm : (affectedMask k bits).testBit p = true
    · obtain ⟨q, hq, he⟩ := (affectedMask_testBit k bits p).mp hm
      refine Or.inr ⟨q, hq, he, ?_⟩
      rw [gatherBits_testBit, he, hg, decide_eq_true hq]
      rfl
    · have hm' : (affectedMask k bits).testBit p = false := by
        cases h : (affectedMask k bits).testBit p
        · rfl
        · exact absurd h hm
      refine Or.inl ?_
      rw [stripMask_testBit, hg, hm']
      rfl

section ScatterLemmas

variable {K : Type} [LinearOrderedField K]

theorem foldl_update_not_mem (key : ℕ → ℕ) (f : ℕ → cplx_t K) (l : List ℕ)
    (r : state_vector_t K) (g : ℕ) (h : ∀ x ∈ l, key x ≠ g) :
    (l.foldl (fun r a => Function.update r (key a) (f a)) r) g = r g := by
  induction l generalizing r with
  | nil => rfl
  | cons b t ih =>
    simp only [List.foldl_cons]
    rw [ih _ (fun x hx => h x (List.mem_cons_of_mem b hx))]
    exact Function.update_noteq (Ne.symm (h b (List.mem_cons_self b t))) _ r

theorem foldl_update_mem (key : ℕ → ℕ) (f : ℕ → cplx_t K) (l : List ℕ)
    (r : state_vector_t K) (a : ℕ) (ha : a ∈ l) (hnd : l.Nodup)
    (hinj : ∀ x ∈ l, ∀ y ∈ l, key x = key y → x = y) :
    (l.foldl (fun r a => Function.update r (key a) (f a)) r) (key a) = f a := by
  induction l generalizing r with
  | nil => cases ha
  | cons b t ih =>
    simp only [List.foldl_cons]
    rcases List.mem_cons.mp ha with hab | hat
    · subst hab
      have hbt : a ∉ t := (List.nodup_cons.mp hnd).1
      rw [foldl_update_not_mem]
      · exact Function.update_same _ _ _
      · intro x hx hke
        have : x = a := hinj x (List.mem_cons_of_mem a hx) a (List.mem_cons_self a t) hke
        subst this
        exact hbt hx
    · exact ih (Function.update r (key b) (f b)) hat (List.nodup_cons.mp hnd).2
        (fun x hx y hy => hinj x (List.mem_cons_of_mem b hx) y (List.mem_cons_of_mem b hy))

theorem scatterBlock_at (k : ℕ) (bits : qbit_list_t)
    (hdist : ∀ a b, a < k → b < k → bits a = bits b → a = b) (base : ℕ)
    (hbase : base &&& affectedMask k bits = 0) (localOut : state_vector_t K)
    (r : state_vector_t K) (li : ℕ) (hli : li < 2 ^ k) :
    scatterBlock k bits base localOut r (globalIdx k bits base li) = localOut li := by
  apply foldl_update_mem
  · exact List.mem_range.mpr hli
  · exact List.nodup_range _
  · intro x hx y hy hke
    have hx' := List.mem_range.mp hx
    have hy' := List.mem_range.mp hy
    have : gatherBits k bits (globalIdx k bits base x)
        = gatherBits k bits (globalIdx k bits base y) := by rw [hke]
    rwa [gatherBits_globalIdx k bits hdist base x hbase hx',
      gatherBits_globalIdx k bits hdist base y hbase hy'] at this

theorem scatterBlock_other (k : ℕ) (bits : qbit_list_t) (base : ℕ)
    (localOut : state_vector_t K) (r : state_vector_t K) (g : ℕ)
    (h : ∀ li, li < 2 ^ k → globalIdx k bits base li ≠ g) :
    scatterBlock k bits base localOut r g = r g := by
  apply foldl_update_not_mem
  intro x hx
  exact h x (List.mem_range.mp hx)

theorem blockStep_frame (k : ℕ) (U : matrix_t K) (bits : qbit_list_t) (base : ℕ)
    (hbase : base &&& affectedMask k bits = 0) (r : state_vector_t K) (g : ℕ)
    (hg : stripMask (affectedMask k bits) g ≠ base) :
    blockStep k U bits base r g = r g := by
  unfold blockStep
  apply scatterBlock_other
  intro li _ heq
  apply hg
  rw [← heq, stripMask_globalIdx k bits base li hbase]

theorem blockStep_at (k : ℕ) (U : matrix_t K) (bits : qbit_list_t)
    (hdist : ∀ a b, a < k → b < k → bits a = bits b → a = b) (base : ℕ)
    (hbase : base &&& affectedMask k bits = 0) (r : state_vector_t K) (li : ℕ)
    (hli : li < 2 ^ k) :
    blockStep k U bits base r (globalIdx k bits base li)
      = ∑ j in Finset.range (2 ^ k), U li j * r (globalIdx k bits base j) := by
  unfold blockStep
  rw [scatterBlock_at k bits hdist base hbase _ r li hli]
  simp only [apply_unitary, hli, if_pos]

end ScatterLemmas

theorem gateApp_foldl_char {K : Type} [LinearOrderedField K] (k : ℕ) (U : matrix_t K)
    (bits : qbit_list_t) (hdist : ∀ a b, a < k → b < k → bits a = bits b → a = b)
    (l : List ℕ) (hnd : l.Nodup) (s : state_vector_t K) (g : ℕ) :
    (l.foldl
        (fun r base =>
          if base &&& affectedMask k bits ≠ 0 then r else blockStep k U bits base r) s) g
      = if stripMask (affectedMask k bits) g ∈ l then
          ∑ j in Finset.range (2 ^ k),
            U (gatherBits k bits g) j *
              s (globalIdx k bits (stripMask (affectedMask k bits) g) j)
        else s g := by
  induction l generalizing s with
  | nil => simp
  | cons b t ih =>
    have hbt : b ∉ t := (List.nodup_cons.mp hnd).1
    have hndt : t.Nodup := (List.nodup_cons.mp hnd).2
    simp only [List.foldl_cons]
    rw [ih hndt]
    by_cases hb : b &&& affectedMask k bits ≠ 0
    · rw [if_pos hb]
      have hne : stripMask (affectedMask k bits) g ≠ b := by
        intro he
        apply hb
        rw [← he]
        exact stripMask_land _ _
      by_cases hmem : stripMask (affectedMask k bits) g ∈ t
      · rw [if_pos hmem, if_pos (List.mem_cons_of_mem b hmem)]
      · rw [if_neg hmem, if_neg (by
          intro hc
          rcases List.mem_cons.mp hc with h | h
          · exact hne h
          · exact hmem h)]
    · have hb0 : b &&& affectedMask k bits = 0 := not_ne_iff.mp hb
      rw [if_neg hb]
      by_cases hmem : stripMask (affectedMask k bits) g ∈ t
      · rw [if_pos hmem, if_pos (List.mem_cons_of_mem b hmem)]
        apply Finset.sum_congr rfl
        intro j _
        congr 1
        apply blockStep_frame k U bits b hb0
        rw [stripMask_globalIdx k bits _ j (stripMask_land _ _)]
        exact fun he => hbt (he ▸ hmem)
      · by_cases heq : stripMask (affectedMask k bits) g = b
        · rw [if_neg hmem, if_pos (by rw [heq]; exact List.mem_cons_self b t)]
          conv_lhs => rw [← globalIdx_stripMask_gatherBits k bits g, heq]
          rw [blockStep_at k U bits hdist b hb0 s (gatherBits k bits g)
            (gatherBits_lt k bits g), heq]
        · rw [if_neg hmem, if_neg (by
            intro hc
            rcases List.mem_cons.mp hc with h | h
            · exact heq h
            · exact hmem h)]
          exact blockStep_frame k U bits b hb0 s g heq

theorem gateApp_closed_form {K : Type} [LinearOrderedField K] (n k : ℕ) (U : matrix_t K)
    (bits : qbit_list_t) (hdist : ∀ a b, a < k → b < k → bits a = bits b → a = b)
    (psi : state_vector_t K) (g : ℕ) (hg : g < 2 ^ n) :
    QuantumGateOp.app k U bits (2 ^ n) psi g
      = ∑ j in Finset.range (2 ^ k),
          U (gatherBits k bits g) j *
            psi (globalIdx k bits (stripMask (affectedMask k bits) g) j) := by
  unfold QuantumGateOp.app
  rw [gateApp_foldl_char k U bits hdist (List.range (2 ^ n)) (List.nodup_range _) psi g]
  rw [if_pos (List.mem_range.mpr (stripMask_lt _ g n hg))]

/-- C2: for every `n ≤ 4` (in fact for every `n`), every k-qubit gate matrix
`U` passing the unitarity check, every list of k distinct target positions
inside `[0, n)` and every 2^n-dimensional state vector, the bit-masked
block engine `QuantumGateOp::operator()` computes exactly the product of
the state with the dense Kronecker-expanded operator
`(I ⊗ … ⊗ U ⊗ … ⊗ I)` (with local bit b at target position `bits b`). -/
theorem C2_gate_app_matches_kronecker {K : Type} [LinearOrderedField K] (n k : ℕ)
    (hn : n ≤ 4) (U : matrix_t K) (hU : is_unitary (2 ^ k) U) (bits : qbit_list_t)
    (hrange : ∀ q, q < k → bits q < n)
    (hdist : ∀ a b, a < k → b < k → bits a = bits b → a = b)
    (psi : state_vector_t K) (g : ℕ) (hg : g < 2 ^ n) :
    QuantumGateOp.app k U bits (2 ^ n) psi g
      = denseApply n (kroneckerExpanded k bits U) psi g := by
  rw [gateApp_closed_form n k U bits hdist psi g hg]
  unfold denseApply kroneckerExpanded
  rw [if_pos hg]
  simp only [ite_mul, zero_mul]
  rw [← Finset.sum_filter]
  symm
  apply Finset.sum_bij' (fun h _ => gatherBits k bits h)
    (fun b _ => globalIdx k bits (stripMask (affectedMask k bits) g) b)
  · intro a ha
    exact Finset.mem_range.mpr (gatherBits_lt k bits a)
  · intro b hb
    rw [Finset.mem_filter]
    constructor
    · exact Finset.mem_range.mpr
        (globalIdx_lt n k bits _ b (stripMask_lt _ g n hg) hrange)
    · rw [stripMask_globalIdx k bits _ b (stripMask_land _ _)]
  · intro a ha
    have hsb : stripMask (affectedMask k bits) g = stripMask (affectedMask k bits) a :=
      (Finset.mem_filter.mp ha).2
    rw [hsb, globalIdx_stripMask_gatherBits]
  · intro b hb
    exact gatherBits_globalIdx k bits hdist _ b (stripMask_land _ _)
      (Finset.mem_range.mp hb)
  · intro a ha
    have hsb : stripMask (affectedMask k bits) g = stripMask (affectedMask k bits) a :=
      (Finset.mem_filter.mp ha).2
    rw [hsb, globalIdx_stripMask_gatherBits]

namespace ConstexprMath.Complex

theorem conj_add {K : Type} [LinearOrderedField K] (z w : Complex K) :
    (z + w).conj = z.conj + w.conj := by
  ext <;> simp <;> ring

theorem conj_mul {K : Type} [LinearOrderedField K] (z w : Complex K) :
    (z * w).conj = z.conj * w.conj := by
  ext <;> simp <;> ring

theorem conj_zero {K : Type} [LinearOrderedField K] : (0 : Complex K).conj = 0 := by
  ext <;> simp

theorem conj_mul_self_re {K : Type} [LinearOrderedField K] (z : Complex K) :
    (z.conj * z).re = z.normSquared := by
  simp only [mul_re, conj_re, conj_im, normSquared]
  ring

theorem conj_mul_self_im {K : Type} [LinearOrderedField K] (z : Complex K) :
    (z.conj * z).im = 0 := by
  simp only [mul_im, conj_re, conj_im]
  ring

theorem conj_sum {K : Type} [LinearOrderedField K] (s : Finset ℕ) (f : ℕ → Complex K) :
    (∑ x in s, f x).conj = ∑ x in s, (f x).conj := by
  induction s using Finset.induction_on with
  | empty => simp [conj_zero]
  | insert hx ih =>
    rw [Finset.sum_insert hx, Finset.sum_insert hx, conj_add, ih]

theorem re_sum {K : Type} [LinearOrderedField K] (s : Finset ℕ) (f : ℕ → Complex K) :
    (∑ x in s, f x).re = ∑ x in s, (f x).re := by
  induction s using Finset.induction_on with
  | empty => simp
  | insert hx ih =>
    rw [Finset.sum_insert hx, Finset.sum_insert hx, add_re, ih]

end ConstexprMath.Complex

theorem unitary_matvec_norm {K : Type} [LinearOrderedField K] (N : ℕ) (U : matrix_t K)
    (hUex : ∀ a, a < N → ∀ b, b < N →
      ∑ i in Finset.range N, (U i a).conj * U i b = if a = b then 1 else 0)
    (v : ℕ → cplx_t K) :
    ∑ i in Finset.range N,
        (∑ j in Finset.range N, U i j * v j).normSquared
      = ∑ j in Finset.range N, (v j).normSquared := by
  have key : ∑ i in Finset.range N,
      ((∑ j in Finset.range N, U i j * v j).conj * (∑ j in Finset.range N, U i j * v j))
      = ∑ j in Finset.range N, ((v j).conj * v j) := by
    have expand : ∀ i,
        ((∑ j in Finset.range N, U i j * v j).conj * (∑ j in Finset.range N, U i j * v j))
          = ∑ j in Finset.range N, ∑ j2 in Finset.range N,
              ((v j).conj * v j2) * ((U i j).conj * U i j2) := by
      intro i
      rw [ConstexprMath.Complex.conj_sum, Finset.sum_mul_sum]
      apply Finset.sum_congr rfl
      intro j _
      apply Finset.sum_congr rfl
      intro j2 _
      rw [ConstexprMath.Complex.conj_mul]
      ring
    rw [Finset.sum_congr rfl (fun i _ => expand i)]
    rw [Finset.sum_comm]
    have inner : ∀ j, j ∈ Finset.range N →
        (∑ i in Finset.range N, ∑ j2 in Finset.range N,
            ((v j).conj * v j2) * ((U i j).conj * U i j2))
          = (v j).conj * v j := by
      intro j hj
      rw [Finset.sum_comm]
      have each : ∀ j2, j2 ∈ Finset.range N →
          (∑ i in Finset.range N, ((v j).conj * v j2) * ((U i j).conj * U i j2))
            = ((v j).conj * v j2) * (if j = j2 then 1 else 0) := by
        intro j2 hj2
        rw [← Finset.mul_sum, hUex j (Finset.mem_range.mp hj) j2 (Finset.mem_range.mp hj2)]
      rw [Finset.sum_congr rfl each]
      simp only [mul_ite, mul_one, mul_zero]
      rw [Finset.sum_ite_eq (Finset.range N) j (fun j2 => (v j).conj * v j2)]
      rw [if_pos hj]
    rw [Finset.sum_congr rfl inner]
  have lhs_eq : ∑ i in Finset.range N,
      (∑ j in Finset.range N, U i j * v j).normSquared
      = (∑ i in Finset.range N,
          ((∑ j in Finset.range N, U i j * v j).conj * (∑ j in Finset.range N, U i j * v j))).re := by
    rw [ConstexprMath.Complex.re_sum]
    apply Finset.sum_congr rfl
    intro i _
    rw [ConstexprMath.Complex.conj_mul_self_re]
  rw [lhs_eq, key, ConstexprMath.Complex.re_sum]
  apply Finset.sum_congr rfl
  intro j _
  rw [ConstexprMath.Complex.conj_mul_self_re]

theorem sum_block_partition {K : Type} [LinearOrderedField K] (n k : ℕ)
    (bits : qbit_list_t) (hrange : ∀ q, q < k → bits q < n)
    (hdist : ∀ a b, a < k → b < k → bits a = bits b → a = b) (f : ℕ → K) :
    ∑ g in Finset.range (2 ^ n), f g
      = ∑ b in (Finset.range (2 ^ n)).filter (fun b => b &&& affectedMask k bits = 0),
          ∑ i in Finset.range (2 ^ k), f (globalIdx k bits b i) := by
  rw [← Finset.sum_product']
  apply Finset.sum_bij'
    (fun g _ => (stripMask (affectedMask k bits) g, gatherBits k bits g))
    (fun p _ => globalIdx k bits p.1 p.2)
  · intro g hg
    rw [Finset.mem_product]
    constructor
    · rw [Finset.mem_filter]
      exact ⟨Finset.mem_range.mpr (stripMask_lt _ g n (Finset.mem_range.mp hg)),
        stripMask_land _ _⟩
    · exact Finset.mem_range.mpr (gatherBits_lt k bits g)
  · intro p hp
    rw [Finset.mem_product] at hp
    have h1 := Finset.mem_filter.mp hp.1
    exact Finset.mem_range.mpr
      (globalIdx_lt n k bits p.1 p.2 (Finset.mem_range.mp h1.1) hrange)
  · intro g _
    exact globalIdx_stripMask_gatherBits k bits g
  · intro p hp
    rw [Finset.mem_product] at hp
    have h1 := Finset.mem_filter.mp hp.1
    have h2 := Finset.mem_range.mp hp.2
    apply Prod.ext
    · exact stripMask_globalIdx k bits p.1 p.2 h1.2
    · exact gatherBits_globalIdx k bits hdist p.1 p.2 h1.2 h2
  · intro g _
    rw [globalIdx_stripMask_gatherBits k bits g]

/-- Amended C5: when the gate matrix is EXACTLY unitary (U†·U = I, not just
within the 1e-9 tolerance of the check) and the targets are distinct and in
range, the gate-application engine preserves the norm exactly:
Σ|ψᵢ|² = 1 implies Σ|ψ'ᵢ|² = 1. -/
theorem C5_amended_exact_unitary_norm {K : Type} [LinearOrderedField K] (n k : ℕ)
    (U : matrix_t K) (bits : qbit_list_t) (hrange : ∀ q, q < k → bits q < n)
    (hdist : ∀ a b, a < k → b < k → bits a = bits b → a = b)
    (hUex : ∀ a, a < 2 ^ k → ∀ b, b < 2 ^ k →
      ∑ i in Finset.range (2 ^ k), (U i a).conj * U i b = if a = b then 1 else 0)
    (psi : state_vector_t K)
    (hpsi : ∑ g in Finset.range (2 ^ n), (psi g).normSquared = 1) :
    ∑ g in Finset.range (2 ^ n),
        (QuantumGateOp.app k U bits (2 ^ n) psi g).normSquared = 1 := by
  have step1 : ∑ g in Finset.range (2 ^ n),
      (QuantumGateOp.app k U bits (2 ^ n) psi g).normSquared
      = ∑ g in Finset.range (2 ^ n),
          (∑ j in Finset.range (2 ^ k),
            U (gatherBits k bits g) j *
              psi (globalIdx k bits (stripMask (affectedMask k bits) g) j)).normSquared := by
    apply Finset.sum_congr rfl
    intro g hg
    rw [gateApp_closed_form n k U bits hdist psi g (Finset.mem_range.mp hg)]
  rw [step1]
  rw [sum_block_partition n k bits hrange hdist]
  have step2 : ∀ b ∈ (Finset.range (2 ^ n)).filter
      (fun b => b &&& affectedMask k bits = 0),
      (∑ i in Finset.range (2 ^ k),
        (∑ j in Finset.range (2 ^ k),
          U (gatherBits k bits (globalIdx k bits b i)) j *
            psi (globalIdx k bits
              (stripMask (affectedMask k bits) (globalIdx k bits b i)) j)).normSquared)
        = ∑ j in Finset.range (2 ^ k), (psi (globalIdx k bits b j)).normSquared := by
    intro b hb
    have hb' := Finset.mem_filter.mp hb
    have hinner : ∀ i ∈ Finset.range (2 ^ k),
        (∑ j in Finset.range (2 ^ k),
          U (gatherBits k bits (globalIdx k bits b i)) j *
            psi (globalIdx k bits
              (stripMask (affectedMask k bits) (globalIdx k bits b i)) j)).normSquared
        = (∑ j in Finset.range (2 ^ k),
            U i j * psi (globalIdx k bits b j)).normSquared := by
      intro i hi
      rw [gatherBits_globalIdx k bits hdist b i hb'.2 (Finset.mem_range.mp hi),
        stripMask_globalIdx k bits b i hb'.2]
    rw [Finset.sum_congr rfl hinner]
    exact unitary_matvec_norm (2 ^ k) U hUex (fun j => psi (globalIdx k bits b j))
  rw [Finset.sum_congr rfl step2]
  rw [← sum_block_partition n k bits hrange hdist (fun g => (psi g).normSquared)]
  exact hpsi

/-- C2 witness: the equivalence theorem applied at a concrete input:
n = 2, the Pauli-X gate (which passes the unitarity check) on target 0,
state |00⟩, global index 1. -/
theorem C2_gate_app_witness :
    is_unitary (2 ^ 1) Xmat ∧
    QuantumGateOp.app 1 Xmat (fun _ => 0) (2 ^ 2) psi0 1
      = denseApply 2 (kroneckerExpanded 1 (fun _ => 0) Xmat) psi0 1 := by
  have hU : is_unitary (2 ^ 1) Xmat := by
    intro i hi j hj
    have hi' : i < 2 := by simpa using hi
    have hj' : j < 2 := by simpa using hj
    interval_cases i <;> interval_cases j <;>
      constructor <;> intro hij <;>
        norm_num [Xmat, Finset.sum_range_succ, ConstexprMath.Complex.conj, abs_le] at hij ⊢
  refine ⟨hU, ?_⟩
  exact C2_gate_app_matches_kronecker 2 1 (by norm_num) Xmat hU (fun _ => 0)
    (fun q _ => by norm_num) (fun a b ha hb _ => by omega) psi0 1 (by norm_num)

/-- C3 counterexample: the claim says a gate application whose target
indices are not pairwise distinct is rejected before any amplitude of any
state is read or written, and can never run on a state.  In fact no such
validation exists: binding the X⊗X gate to the duplicate target list
(0, 0) and applying it to |00⟩ (amplitude 1 at index 0) runs normally and
rewrites the amplitudes, producing amplitude 1 at index 1. -/
theorem C3_duplicate_targets_counterexample :
    psi0 0 = 1 ∧ psi0 1 = 0 ∧
    QuantumGateOp.app 2 XXmat (fun _ => 0) 4 psi0 0 = 0 ∧
    QuantumGateOp.app 2 XXmat (fun _ => 0) 4 psi0 1 = 1 := by
  have hmask : affectedMask 2 (fun _ => 0) = 1 := by decide
  have ha0 : (0 : ℕ) &&& 1 = 0 := by decide
  have ha1 : (1 : ℕ) &&& 1 = 1 := by decide
  have ha2 : (2 : ℕ) &&& 1 = 0 := by decide
  have ha3 : (3 : ℕ) &&& 1 = 1 := by decide
  have hg00 : globalIdx 2 (fun _ => 0) 0 0 = 0 := by decide
  have hg01 : globalIdx 2 (fun _ => 0) 0 1 = 1 := by decide
  have hg02 : globalIdx 2 (fun _ => 0) 0 2 = 1 := by decide
  have hg03 : globalIdx 2 (fun _ => 0) 0 3 = 1 := by decide
  have hg20 : globalIdx 2 (fun _ => 0) 2 0 = 2 := by decide
  have hg21 : globalIdx 2 (fun _ => 0) 2 1 = 3 := by decide
  have hg22 : globalIdx 2 (fun _ => 0) 2 2 = 3 := by decide
  have hg23 : globalIdx 2 (fun _ => 0) 2 3 = 3 := by decide
  refine ⟨by norm_num [psi0], by norm_num [psi0], ?_, ?_⟩ <;>
    norm_num [QuantumGateOp.app, blockStep, scatterBlock, apply_unitary,
      List.range_succ, hmask, ha0, ha1, ha2, ha3, hg00, hg01, hg02, hg03, hg20, hg21,
      hg22, hg23, Function.update_apply, XXmat, psi0, Finset.sum_range_succ,
      ConstexprMath.Complex.ext_iff]

/-- C3 (amended): only the target-count condition is enforced (statically,
by the `static_assert(sizeof...(qbits) == QBitCount)` in `toBits`, which
the embedding reflects by `bits` being consumed at exactly `k` indices);
duplicate targets are not validated and the resulting gate application
runs on the state: the X⊗X gate on duplicate targets (0, 0) transforms
|00⟩ into |01⟩ — in particular the applied state differs from the input
state. -/
theorem C3_amended_only_count_checked :
    (∀ g, g < 4 → QuantumGateOp.app 2 XXmat (fun _ => 0) 4 psi0 g
        = (if g = 1 then 1 else 0)) ∧
    QuantumGateOp.app 2 XXmat (fun _ => 0) 4 psi0 ≠ psi0 := by
  have hmask : affectedMask 2 (fun _ => 0) = 1 := by decide
  have ha0 : (0 : ℕ) &&& 1 = 0 := by decide
  have ha1 : (1 : ℕ) &&& 1 = 1 := by decide
  have ha2 : (2 : ℕ) &&& 1 = 0 := by decide
  have ha3 : (3 : ℕ) &&& 1 = 1 := by decide
  have hg00 : globalIdx 2 (fun _ => 0) 0 0 = 0 := by decide
  have hg01 : globalIdx 2 (fun _ => 0) 0 1 = 1 := by decide
  have hg02 : globalIdx 2 (fun _ => 0) 0 2 = 1 := by decide
  have hg03 : globalIdx 2 (fun _ => 0) 0 3 = 1 := by decide
  have hg20 : globalIdx 2 (fun _ => 0) 2 0 = 2 := by decide
  have hg21 : globalIdx 2 (fun _ => 0) 2 1 = 3 := by decide
  have hg22 : globalIdx 2 (fun _ => 0) 2 2 = 3 := by decide
  have hg23 : globalIdx 2 (fun _ => 0) 2 3 = 3 := by decide
  have hval : ∀ g, g < 4 → QuantumGateOp.app 2 XXmat (fun _ => 0) 4 psi0 g
      = (if g = 1 then 1 else 0) := by
    intro g hg
    interval_cases g <;>
      norm_num [QuantumGateOp.app, blockStep, scatterBlock, apply_unitary,
        List.range_succ, hmask, ha0, ha1, ha2, ha3, hg00, hg01, hg02, hg03, hg20, hg21,
        hg22, hg23, Function.update_apply, XXmat, psi0, Finset.sum_range_succ,
        ConstexprMath.Complex.ext_iff]
  refine ⟨hval, ?_⟩
  intro hcontra
  have h1 := congrFun hcontra 1
  rw [hval 1 (by norm_num)] at h1
  norm_num [psi0, ConstexprMath.Complex.ext_iff] at h1

/-- C3 witness: the amended theorem's per-index value applied at global
index 1. -/
theorem C3_amended_witness :
    QuantumGateOp.app 2 XXmat (fun _ => 0) 4 psi0 1 = (if 1 = 1 then 1 else 0) :=
  C3_amended_only_count_checked.1 1 (by norm_num)

/-- C5 counterexample: the claim promises `Σ|ψ'ᵢ|² = 1` exactly (when
arithmetic is modelled exactly) for any matrix passing the 1e-9 unitarity
check.  The diagonal matrix `diag(1 + 4·10⁻¹⁰, 1)` passes the check, the
basis state ψ = e₀ has `Σ|ψᵢ|² = 1`, yet the engine returns a state of
squared norm `(1 + 4·10⁻¹⁰)² ≠ 1`. -/
theorem C5_tolerance_counterexample :
    is_unitary (2 ^ 1) Ueps ∧
    (∑ g in Finset.range (2 ^ 1), (psi0 g).normSquared) = 1 ∧
    (∑ g in Finset.range (2 ^ 1),
        (QuantumGateOp.app 1 Ueps (fun _ => 0) (2 ^ 1) psi0 g).normSquared) ≠ 1 := by
  have hmask : affectedMask 1 (fun _ => 0) = 1 := by decide
  have ha0 : (0 : ℕ) &&& 1 = 0 := by decide
  have ha1 : (1 : ℕ) &&& 1 = 1 := by decide
  have hg0 : globalIdx 1 (fun _ => 0) 0 0 = 0 := by decide
  have hg1 : globalIdx 1 (fun _ => 0) 0 1 = 1 := by decide
  refine ⟨?_, ?_, ?_⟩
  · intro i hi j hj
    have hi' : i < 2 := by simpa using hi
    have hj' : j < 2 := by simpa using hj
    interval_cases i <;> interval_cases j <;>
      constructor <;> intro hij <;>
        norm_num [Ueps, Finset.sum_range_succ, ConstexprMath.Complex.conj, abs_le] at hij ⊢
  · norm_num [psi0, ConstexprMath.Complex.normSquared, Finset.sum_range_succ]
  · norm_num [QuantumGateOp.app, blockStep, scatterBlock, apply_unitary,
      List.range_succ, hmask, ha0, ha1, hg0, hg1, Function.update_apply, Ueps, psi0,
      Finset.sum_range_succ, ConstexprMath.Complex.normSquared]

/-- C5 witness: the amended norm-preservation theorem applied at a
concrete input: the exactly unitary Pauli-X gate on target 0 of a 1-qubit
register, state e₀. -/
theorem C5_amended_witness :
    (∑ g in Finset.range (2 ^ 1), (psi0 g).normSquared) = 1 ∧
    (∑ g in Finset.range (2 ^ 1),
        (QuantumGateOp.app 1 Xmat (fun _ => 0) (2 ^ 1) psi0 g).normSquared) = 1 := by
  have hpsi : (∑ g in Finset.range (2 ^ 1), (psi0 g).normSquared) = 1 := by
    norm_num [psi0, ConstexprMath.Complex.normSquared, Finset.sum_range_succ]
  refine ⟨hpsi, ?_⟩
  apply C5_amended_exact_unitary_norm 1 1 Xmat (fun _ => 0) (fun q _ => by norm_num)
    (fun a b ha hb _ => by omega) ?_ psi0 hpsi
  intro a ha b hb
  have ha' : a < 2 := by simpa using ha
  have hb' : b < 2 := by simpa using hb
  interval_cases a <;> interval_cases b <;>
    norm_num [Xmat, Finset.sum_range_succ, ConstexprMath.Complex.conj,
      ConstexprMath.Complex.ext_iff]
